import Mathlib

/-!
Verification of the smart-search IR system core against its specification.

Each section embeds one source module as Lean definitions:
* `Sorter`  — src/utils/sorter.py (merge, merge_sort, sort_results)
* `SorterHeap` — heap-level model of sorter.py list mutation for frame reasoning
* `TrieM`   — src/structures/trie.py
* `BPT`     — src/structures/b_plus_tree.py
* `GraphM`  — src/structures/graph.py
* `EngineM` — src/engine.py

Numeric scores are modelled with exact rationals (`ℚ`).
-/

namespace Sorter

/-- `merge` from src/utils/sorter.py: merge two lists into one, in descending
order of the `score` field (`sc`); when `left[i].score >= right[j].score` the
left element is taken first. -/
def merge {α : Type} (sc : α → ℚ) : List α → List α → List α
  | [], r => r
  | l, [] => l
  | a :: l, b :: r =>
    if sc b ≤ sc a then a :: merge sc l (b :: r)
    else b :: merge sc (a :: l) r
termination_by l r => l.length + r.length

/-- `merge_sort` from src/utils/sorter.py: lists of length ≤ 1 are returned
as-is; otherwise split at `len / 2`, recursively sort both halves and merge. -/
def merge_sort {α : Type} (sc : α → ℚ) (arr : List α) : List α :=
  if arr.length ≤ 1 then arr
  else
    merge sc (merge_sort sc (arr.take (arr.length / 2)))
             (merge_sort sc (arr.drop (arr.length / 2)))
termination_by arr.length
decreasing_by
  · simp only [List.length_take]
    omega
  · simp only [List.length_drop]
    omega

/-- `sort_results` from src/utils/sorter.py: empty input short-circuits to a
fresh empty list, otherwise merge sort is used. -/
def sort_results {α : Type} (sc : α → ℚ) (l : List α) : List α :=
  match l with
  | [] => []
  | _ :: _ => merge_sort sc l

/-- The descending comparison used throughout: `b`'s score is at most `a`'s. -/
def descBy {α : Type} (sc : α → ℚ) (a b : α) : Prop := sc b ≤ sc a

theorem merge_perm {α : Type} (sc : α → ℚ) :
    ∀ l r : List α, (merge sc l r).Perm (l ++ r)
  | [], r => by simp [merge]
  | a :: l, [] => by simp [merge]
  | a :: l, b :: r => by
    simp only [merge]
    by_cases h : sc b ≤ sc a
    · simpa [h] using (merge_perm sc l (b :: r)).cons a
    · rw [if_neg h]
      exact ((merge_perm sc (a :: l) r).cons b).trans List.perm_middle.symm
termination_by l r => l.length + r.length

theorem mem_merge {α : Type} {sc : α → ℚ} {x : α} {l r : List α} :
    x ∈ merge sc l r ↔ x ∈ l ∨ x ∈ r := by
  rw [(merge_perm sc l r).mem_iff, List.mem_append]

theorem merge_sorted {α : Type} (sc : α → ℚ) :
    ∀ l r : List α, l.Sorted (descBy sc) → r.Sorted (descBy sc) →
      (merge sc l r).Sorted (descBy sc)
  | [], r, _, hr => by simpa [merge] using hr
  | a :: l, [], hl, _ => by simpa [merge] using hl
  | a :: l, b :: r, hl, hr => by
    simp only [merge]
    rw [List.sorted_cons] at hl
    by_cases h : sc b ≤ sc a
    · rw [if_pos h, List.sorted_cons]
      refine ⟨?_, merge_sorted sc l (b :: r) hl.2 hr⟩
      intro x hx
      rcases mem_merge.mp hx with hx' | hx'
      · exact hl.1 x hx'
      · rcases List.mem_cons.mp hx' with rfl | hx''
        · exact h
        · exact le_trans ((List.sorted_cons.mp hr).1 x hx'') h
    · rw [if_neg h, List.sorted_cons]
      rw [List.sorted_cons] at hr
      refine ⟨?_, merge_sorted sc (a :: l) r (List.sorted_cons.mpr hl) hr.2⟩
      intro x hx
      rcases mem_merge.mp hx with hx' | hx'
      · rcases List.mem_cons.mp hx' with rfl | hx''
        · exact le_of_lt (not_le.mp h)
        · exact le_trans (hl.1 x hx'') (le_of_lt (not_le.mp h))
      · exact hr.1 x hx'
termination_by l r => l.length + r.length

theorem filter_eq_nil_of_lt {α : Type} {sc : α → ℚ} {q : ℚ} {l : List α}
    (_hl : l.Sorted (descBy sc)) (c : ℚ) (hc : ∀ x ∈ l, sc x ≤ c) (hlt : c < q) :
    l.filter (fun x => decide (sc x = q)) = [] := by
  rw [List.filter_eq_nil_iff]
  intro x hx
  simp only [decide_eq_true_eq]
  exact ne_of_lt (lt_of_le_of_lt (hc x hx) hlt)

/-- Stability of `merge`: provided the left list is sorted descending, the
equal-score elements of the output are those of the left list followed by
those of the right list. -/
theorem merge_filter {α : Type} (sc : α → ℚ) (q : ℚ) :
    ∀ l r : List α, l.Sorted (descBy sc) →
      (merge sc l r).filter (fun x => decide (sc x = q)) =
        l.filter (fun x => decide (sc x = q)) ++ r.filter (fun x => decide (sc x = q))
  | [], r, _ => by simp [merge]
  | a :: l, [], _ => by simp [merge]
  | a :: l, b :: r, hl => by
    simp only [merge]
    by_cases h : sc b ≤ sc a
    · rw [if_pos h]
      rw [List.sorted_cons] at hl
      have ih := merge_filter sc q l (b :: r) hl.2
      by_cases ha : sc a = q
      · simp [List.filter_cons, ha, ih]
      · simp [List.filter_cons, ha, ih]
    · rw [if_neg h]
      have ih := merge_filter sc q (a :: l) r hl
      by_cases hb : sc b = q
      · have hnil : (a :: l).filter (fun x => decide (sc x = q)) = [] := by
          rw [List.sorted_cons] at hl
          refine filter_eq_nil_of_lt (List.sorted_cons.mpr hl) (sc a) ?_ ?_
          · intro x hx
            rcases List.mem_cons.mp hx with rfl | hx'
            · exact le_refl _
            · exact hl.1 x hx'
          · rw [← hb]
            exact not_le.mp h
        simp [List.filter_cons, hb, ih, hnil]
      · simp [List.filter_cons, hb, ih]
termination_by l r => l.length + r.length

theorem merge_sort_perm {α : Type} (sc : α → ℚ) (arr : List α) :
    (merge_sort sc arr).Perm arr := by
  rw [merge_sort]
  split
  · exact List.Perm.refl arr
  · refine (merge_perm sc _ _).trans ?_
    have h1 := merge_sort_perm sc (arr.take (arr.length / 2))
    have h2 := merge_sort_perm sc (arr.drop (arr.length / 2))
    have h3 := List.take_append_drop (arr.length / 2) arr
    exact (h1.append h2).trans (by rw [h3])
termination_by arr.length
decreasing_by
  all_goals simp only [List.length_take, List.length_drop]
  all_goals omega

theorem merge_sort_sorted {α : Type} (sc : α → ℚ) (arr : List α) :
    (merge_sort sc arr).Sorted (descBy sc) := by
  rw [merge_sort]
  split
  · rename_i h
    rcases arr with _ | ⟨a, _ | ⟨b, t⟩⟩
    · exact List.sorted_nil
    · exact List.sorted_singleton a
    · simp at h
  · exact merge_sorted sc _ _ (merge_sort_sorted sc _) (merge_sort_sorted sc _)
termination_by arr.length
decreasing_by
  all_goals simp only [List.length_take, List.length_drop]
  all_goals omega

theorem merge_sort_filter {α : Type} (sc : α → ℚ) (q : ℚ) (arr : List α) :
    (merge_sort sc arr).filter (fun x => decide (sc x = q)) =
      arr.filter (fun x => decide (sc x = q)) := by
  rw [merge_sort]
  split
  · rfl
  · rw [merge_filter sc q _ _ (merge_sort_sorted sc _),
      merge_sort_filter sc q (arr.take (arr.length / 2)),
      merge_sort_filter sc q (arr.drop (arr.length / 2)),
      ← List.filter_append, List.take_append_drop]
termination_by arr.length
decreasing_by
  all_goals simp only [List.length_take, List.length_drop]
  all_goals omega

/-- C3: `merge_sort` is a stable descending sort: the output is a permutation
of the input, sorted in non-increasing order of the score field, and for every
score level the equal-score elements keep their original relative order
(expressed as: filtering the output at any fixed score yields exactly the
input's subsequence at that score). -/
theorem C3_merge_sort_stable_descending {α : Type} (sc : α → ℚ) (arr : List α) :
    (merge_sort sc arr).Perm arr ∧
    (merge_sort sc arr).Sorted (descBy sc) ∧
    (∀ q : ℚ, (merge_sort sc arr).filter (fun x => decide (sc x = q)) =
      arr.filter (fun x => decide (sc x = q))) :=
  ⟨merge_sort_perm sc arr, merge_sort_sorted sc arr, fun q => merge_sort_filter sc q arr⟩

end Sorter

namespace SorterHeap

/-- Python lists are mutable objects on a heap.  A heap is the sequence of
list objects allocated so far; a reference is an index into it. -/
abbrev Heap (α : Type) := List (List α)

/-- Read the list object behind reference `r`. -/
def hget {α : Type} : Heap α → Nat → List α
  | [], _ => []
  | l :: _, 0 => l
  | _ :: h, n + 1 => hget h n

/-- Overwrite the list object behind reference `r` (in-place mutation). -/
def hset {α : Type} : Heap α → Nat → List α → Heap α
  | [], _, _ => []
  | _ :: h, 0, l => l :: h
  | x :: h, n + 1, l => x :: hset h n l

/-- Allocate a fresh list object, returning the new heap and its reference. -/
def halloc {α : Type} (h : Heap α) (l : List α) : Heap α × Nat := (h ++ [l], h.length)

/-- `lst.append(x)` on the list object behind `r`. -/
def happend {α : Type} (h : Heap α) (r : Nat) (x : α) : Heap α :=
  hset h r (hget h r ++ [x])

/-- `merge(left, right)` from src/utils/sorter.py at the heap level:
`result = []` allocates a fresh list object; the loops read `left` and
`right` and append the merged elements one by one to the fresh object, in
exactly the order produced by `Sorter.merge`. -/
def mergeH {α : Type} (sc : α → ℚ) (h : Heap α) (l r : Nat) : Heap α × Nat :=
  let p := halloc h []
  ((Sorter.merge sc (hget h l) (hget h r)).foldl (fun hh x => happend hh p.2 x) p.1, p.2)

/-- `merge_sort(arr)` from src/utils/sorter.py at the heap level.  A list of
length ≤ 1 is returned as the same object (aliased, not copied); otherwise
`arr[:mid]` and `arr[mid:]` allocate fresh slice copies, both halves are
sorted recursively and merged into a fresh result object.  `fuel` bounds the
recursion depth; the frame properties below hold for every fuel. -/
def merge_sortH {α : Type} (sc : α → ℚ) (fuel : Nat) (h : Heap α) (r : Nat) :
    Heap α × Nat :=
  match fuel with
  | 0 => (h, r)
  | fuel + 1 =>
    let arr := hget h r
    if arr.length ≤ 1 then (h, r)
    else
      let mid := arr.length / 2
      let pl := halloc h (arr.take mid)
      let pr := halloc pl.1 ((hget pl.1 r).drop mid)
      let sl := merge_sortH sc fuel pr.1 pl.2
      let sr := merge_sortH sc fuel sl.1 pr.2
      mergeH sc sr.1 sl.2 sr.2

/-- `sort_results(results_list)` from src/utils/sorter.py at the heap level:
an empty input returns a fresh empty list object. -/
def sort_resultsH {α : Type} (sc : α → ℚ) (h : Heap α) (r : Nat) : Heap α × Nat :=
  if (hget h r).isEmpty then halloc h []
  else merge_sortH sc (hget h r).length h r

theorem hget_append_lt {α : Type} (h : Heap α) (l : List α) (i : Nat)
    (hi : i < h.length) : hget (h ++ [l]) i = hget h i := by
  induction h generalizing i with
  | nil => simp at hi
  | cons x t ih =>
    cases i with
    | zero => rfl
    | succ n => exact ih n (by simpa using hi)

theorem hget_hset_ne {α : Type} (h : Heap α) (r i : Nat) (l : List α)
    (hne : i ≠ r) : hget (hset h r l) i = hget h i := by
  induction h generalizing r i with
  | nil => rfl
  | cons x t ih =>
    cases r with
    | zero =>
      cases i with
      | zero => exact absurd rfl hne
      | succ n => rfl
    | succ m =>
      cases i with
      | zero => rfl
      | succ n => exact ih m n (by omega)

theorem length_hset {α : Type} (h : Heap α) (r : Nat) (l : List α) :
    (hset h r l).length = h.length := by
  induction h generalizing r with
  | nil => rfl
  | cons x t ih =>
    cases r with
    | zero => simp [hset]
    | succ m => simp [hset, ih m]

theorem hget_foldl_happend_ne {α : Type} (xs : List α) (h : Heap α) (r i : Nat)
    (hne : i ≠ r) :
    hget (xs.foldl (fun hh x => happend hh r x) h) i = hget h i := by
  induction xs generalizing h with
  | nil => rfl
  | cons x t ih =>
    rw [List.foldl_cons, ih (happend h r x)]
    exact hget_hset_ne h r i _ hne

theorem length_foldl_happend {α : Type} (xs : List α) (h : Heap α) (r : Nat) :
    (xs.foldl (fun hh x => happend hh r x) h).length = h.length := by
  induction xs generalizing h with
  | nil => rfl
  | cons x t ih => rw [List.foldl_cons, ih (happend h r x)]; exact length_hset h r _

/-- Heap extension: all previously allocated list objects keep their contents. -/
def Ext {α : Type} (h h' : Heap α) : Prop :=
  h.length ≤ h'.length ∧ ∀ i, i < h.length → hget h' i = hget h i

theorem Ext.refl {α : Type} (h : Heap α) : Ext h h := ⟨le_refl _, fun _ _ => rfl⟩

theorem Ext.trans {α : Type} {h1 h2 h3 : Heap α} (a : Ext h1 h2) (b : Ext h2 h3) :
    Ext h1 h3 :=
  ⟨le_trans a.1 b.1, fun i hi => (b.2 i (lt_of_lt_of_le hi a.1)).trans (a.2 i hi)⟩

theorem ext_halloc {α : Type} (h : Heap α) (l : List α) : Ext h (halloc h l).1 :=
  ⟨by simp [halloc], fun i hi => hget_append_lt h l i hi⟩

theorem ext_mergeH {α : Type} (sc : α → ℚ) (h : Heap α) (l r : Nat) :
    Ext h (mergeH sc h l r).1 := by
  show Ext h ((Sorter.merge sc (hget h l) (hget h r)).foldl
    (fun hh x => happend hh h.length x) (h ++ [[]]))
  constructor
  · rw [length_foldl_happend]
    simp
  · intro i hi
    rw [hget_foldl_happend_ne _ _ _ i (by omega)]
    exact hget_append_lt h [] i hi

theorem ext_merge_sortH {α : Type} (sc : α → ℚ) (fuel : Nat) (h : Heap α) (r : Nat) :
    Ext h (merge_sortH sc fuel h r).1 := by
  induction fuel generalizing h r with
  | zero => exact Ext.refl h
  | succ n ih =>
    rw [merge_sortH]
    by_cases hc : (hget h r).length ≤ 1
    · simpa [hc] using Ext.refl h
    · simp only [hc, if_false]
      exact ((((ext_halloc h _).trans (ext_halloc _ _)).trans (ih _ _)).trans
        (ih _ _)).trans (ext_mergeH sc _ _ _)

theorem ext_sort_resultsH {α : Type} (sc : α → ℚ) (h : Heap α) (r : Nat) :
    Ext h (sort_resultsH sc h r).1 := by
  rw [sort_resultsH]
  split
  · exact ext_halloc h []
  · exact ext_merge_sortH sc _ h r

/-- C10: sorting never mutates its input — at the heap level, `merge_sort`
and `sort_results` leave the contents of every previously allocated list
object (in particular the caller's input list) unchanged; the recursion
works on freshly allocated slice copies and the merge appends only to a
freshly allocated output object. -/
theorem C10_sorting_never_mutates_input {α : Type} (sc : α → ℚ) (fuel : Nat)
    (h : Heap α) (r i : Nat) (hi : i < h.length) :
    hget (merge_sortH sc fuel h r).1 i = hget h i ∧
    hget (sort_resultsH sc h r).1 i = hget h i :=
  ⟨(ext_merge_sortH sc fuel h r).2 i hi, (ext_sort_resultsH sc h r).2 i hi⟩

/-- Witness for C10 at a concrete heap holding one two-element list. -/
theorem C10_witness :
    0 < ([[(2:ℚ), 1]] : Heap ℚ).length ∧
    (hget (merge_sortH (fun x => x) 2 [[(2:ℚ), 1]] 0).1 0 = hget [[(2:ℚ), 1]] 0 ∧
     hget (sort_resultsH (fun x => x) [[(2:ℚ), 1]] 0).1 0 = hget [[(2:ℚ), 1]] 0) :=
  ⟨by decide, C10_sorting_never_mutates_input (fun x => x) 2 [[(2:ℚ), 1]] 0 0 (by decide)⟩

end SorterHeap

namespace TrieM

/-- A trie node from src/structures/trie.py: `children` is the dictionary
mapping characters to child nodes (association list in dict insertion
order), `isWord` is the `is_end_of_word` flag. -/
inductive Trie where
  | node (isWord : Bool) (children : List (Char × Trie))

/-- `node.children[c]` (first binding of `c`; Python dict keys are unique). -/
def childLookup : List (Char × Trie) → Char → Option Trie
  | [], _ => none
  | (c, t) :: rest, d => if c = d then some t else childLookup rest d

/-- `node.children[c] = t`: replace the binding in place when the key exists,
otherwise append it (Python dicts keep insertion order). -/
def childSet : List (Char × Trie) → Char → Trie → List (Char × Trie)
  | [], d, t => [(d, t)]
  | (c, u) :: rest, d, t =>
    if c = d then (d, t) :: rest else (c, u) :: childSet rest d t

/-- `str.lower()`, char by char. -/
def low (w : List Char) : List Char := w.map Char.toLower

/-- The traversal loop of `Trie.insert` (operating on the already lowercased
word): create missing nodes along the path, then set `is_end_of_word`. -/
def insChars : Trie → List Char → Trie
  | .node _ cs, [] => .node true cs
  | .node b cs, c :: rest =>
    let child := match childLookup cs c with
      | some t => t
      | none => .node false []
    .node b (childSet cs c (insChars child rest))

/-- `Trie.insert(word)` from src/structures/trie.py. -/
def insertW (t : Trie) (w : List Char) : Trie := insChars t (low w)

/-- A fresh `Trie()`: root node with no children, not end of word. -/
def emptyTrie : Trie := .node false []

/-- Insert every word of `ws` in order into a fresh trie. -/
def insertAll (ws : List (List Char)) : Trie := ws.foldl insertW emptyTrie

/-- `Trie._search_prefix` on an already lowercased path: follow the child
pointers, `none` when a character is missing. -/
def findPath : Trie → List Char → Option Trie
  | t, [] => some t
  | .node _ cs, c :: rest =>
    match childLookup cs c with
    | none => none
    | some t => findPath t rest

/-- Word membership: does the path spell an inserted word? -/
def memT : Trie → List Char → Bool
  | .node b _, [] => b
  | .node _ cs, c :: rest =>
    match childLookup cs c with
    | none => false
    | some t => memT t rest

mutual

/-- `Trie._collect_words`: the current node contributes its accumulated word
when `is_end_of_word`, then all children are traversed in dict order. -/
def collect : Trie → List Char → List (List Char)
  | .node b cs, pre => (if b then [pre] else []) ++ collectKids cs pre

/-- The `for char, child_node in node.children.items()` loop of
`Trie._collect_words`. -/
def collectKids : List (Char × Trie) → List Char → List (List Char)
  | [], _ => []
  | (c, t) :: rest, pre => collect t (pre ++ [c]) ++ collectKids rest pre

end

/-- Python string `<=` on (already lowercased) words: lexicographic by
character code. -/
def lexLe : List Char → List Char → Bool
  | [], _ => true
  | _ :: _, [] => false
  | a :: as, b :: bs => if a = b then lexLe as bs else decide (a < b)

/-- `words.sort()` from `Trie.autocomplete` (any correct sort of distinct
words yields the same list; merge sort is used here). -/
def sortWords (ws : List (List Char)) : List (List Char) := ws.mergeSort lexLe

/-- `Trie.autocomplete(prefix, limit)` from src/structures/trie.py. -/
def autocompleteT (t : Trie) (p : List Char) (limit : Nat) : List (List Char) :=
  match findPath t (low p) with
  | none => []
  | some n => (sortWords (collect n (low p))).take limit

/-- Boolean "starts with" on words. -/
def isPfxB : List Char → List Char → Bool
  | [], _ => true
  | _ :: _, [] => false
  | a :: as, b :: bs => a = b && isPfxB as bs

/-- The claim's specification of autocomplete: the `limit` lexicographically
smallest members of the case-folded completion set
`{lower w | w ∈ ws, lower w starts with lower p}`, in alphabetical order,
without duplicates. -/
def autocompleteSpec (ws : List (List Char)) (p : List Char) (limit : Nat) :
    List (List Char) :=
  (sortWords (((ws.map low).filter (fun w => isPfxB (low p) w)).dedup)).take limit

end TrieM

namespace TrieM

theorem childLookup_childSet_eq (cs : List (Char × Trie)) (c : Char) (t : Trie) :
    childLookup (childSet cs c t) c = some t := by
  induction cs with
  | nil => simp [childSet, childLookup]
  | cons p rest ih =>
    obtain ⟨d, u⟩ := p
    by_cases h : d = c
    · simp [childSet, childLookup, h]
    · simp [childSet, childLookup, h, ih]

theorem childLookup_childSet_ne (cs : List (Char × Trie)) (c d : Char) (t : Trie)
    (h : c ≠ d) : childLookup (childSet cs c t) d = childLookup cs d := by
  induction cs with
  | nil => simp [childSet, childLookup, h]
  | cons p rest ih =>
    obtain ⟨e, u⟩ := p
    by_cases he : e = c
    · subst he
      simp [childSet, childLookup, h]
    · by_cases hd : e = d
      · subst hd
        simp [childSet, childLookup, he, Ne.symm h]
      · simp [childSet, childLookup, he, hd, ih]

theorem memT_empty_node (u : List Char) : memT (.node false []) u = false := by
  cases u with
  | nil => rfl
  | cons c r => simp [memT, childLookup]

/-- Effect of the insertion loop on membership: exactly the inserted
(lowercased) word becomes a member; everything else is unchanged. -/
theorem memT_insChars :
    ∀ (w : List Char) (t : Trie) (u : List Char),
      memT (insChars t w) u = (decide (u = w) || memT t u)
  | [], .node b cs, u => by
    cases u with
    | nil => simp [insChars, memT]
    | cons d ur => simp [insChars, memT]
  | c :: rest, .node b cs, u => by
    cases u with
    | nil => simp [insChars, memT]
    | cons d ur =>
      by_cases hdc : d = c
      · subst hdc
        simp only [insChars, memT, childLookup_childSet_eq]
        rw [memT_insChars rest _ ur]
        cases hcl : childLookup cs d with
        | some child => simp [memT, hcl]
        | none => simp [memT, hcl, memT_empty_node]
      · simp only [insChars, memT,
          childLookup_childSet_ne cs c d _ (fun he => hdc he.symm)]
        simp [hdc]

/-- Membership in the trie built from a word list: exactly the lowercased
words are members. -/
theorem memT_insertAll (ws : List (List Char)) (u : List Char) :
    memT (insertAll ws) u = decide (u ∈ ws.map low) := by
  suffices h : ∀ t, memT (ws.foldl insertW t) u = (memT t u || decide (u ∈ ws.map low)) by
    rw [insertAll, h emptyTrie]
    rw [show emptyTrie = Trie.node false [] from rfl, memT_empty_node]
    simp
  induction ws with
  | nil => simp
  | cons w rest ih =>
    intro t
    simp only [List.foldl_cons, ih, insertW, memT_insChars]
    simp only [List.map_cons, List.mem_cons]
    by_cases h1 : u = low w <;> by_cases h2 : u ∈ rest.map low <;>
      simp [h1, h2]

/-- Well-formed trie: every node's child dictionary has distinct keys
(automatic for Python dicts). -/
inductive WFT : Trie → Prop where
  | mk {b : Bool} {cs : List (Char × Trie)} :
      (cs.map Prod.fst).Nodup → (∀ p ∈ cs, WFT p.2) → WFT (.node b cs)

theorem WFT_empty : WFT emptyTrie := WFT.mk List.nodup_nil (by simp)

theorem mem_of_childLookup :
    ∀ (cs : List (Char × Trie)) (d : Char) (t : Trie),
      childLookup cs d = some t → (d, t) ∈ cs := by
  intro cs d t h
  induction cs with
  | nil => simp [childLookup] at h
  | cons p rest ih =>
    obtain ⟨e, u⟩ := p
    by_cases he : e = d
    · subst he
      simp [childLookup] at h
      simp [h]
    · simp [childLookup, he] at h
      simp [ih h]

theorem keys_childSet (cs : List (Char × Trie)) (c : Char) (t : Trie) :
    (childSet cs c t).map Prod.fst =
      (if c ∈ cs.map Prod.fst then cs.map Prod.fst else cs.map Prod.fst ++ [c]) := by
  induction cs with
  | nil => simp [childSet]
  | cons p rest ih =>
    obtain ⟨e, u⟩ := p
    by_cases he : e = c
    · subst he
      simp [childSet]
    · simp only [childSet, if_neg he, List.map_cons]
      rw [ih]
      by_cases hc : c ∈ rest.map Prod.fst <;>
        simp [hc, Ne.symm he, he]

theorem mem_childSet :
    ∀ (cs : List (Char × Trie)) (c : Char) (t : Trie) (p : Char × Trie),
      p ∈ childSet cs c t → p = (c, t) ∨ p ∈ cs := by
  intro cs c t p h
  induction cs with
  | nil => simp [childSet] at h; simp [h]
  | cons q rest ih =>
    obtain ⟨e, u⟩ := q
    by_cases he : e = c
    · subst he
      simp [childSet] at h
      rcases h with h | h
      · exact Or.inl h
      · exact Or.inr (List.mem_cons_of_mem _ h)
    · simp [childSet, he] at h
      rcases h with h | h
      · exact Or.inr (by simp [h])
      · rcases ih h with h' | h'
        · exact Or.inl h'
        · exact Or.inr (List.mem_cons_of_mem _ h')

theorem WFT_insChars : ∀ (w : List Char) (t : Trie), WFT t → WFT (insChars t w)
  | [], .node b cs, hw => by
    cases hw with
    | mk hk hc => exact WFT.mk hk hc
  | c :: rest, .node b cs, hw => by
    cases hw with
    | mk hk hc =>
      simp only [insChars]
      refine WFT.mk ?_ ?_
      · rw [keys_childSet]
        split
        · exact hk
        · rename_i hnc
          simpa using List.Nodup.append hk (List.nodup_singleton c)
              (by simpa using hnc)
      · intro p hp
        rcases mem_childSet cs c _ p hp with rfl | hp'
        · refine WFT_insChars rest _ ?_
          cases hcl : childLookup cs c with
          | some child =>
            simp only [hcl]
            exact hc _ (mem_of_childLookup cs c child hcl)
          | none =>
            simp only [hcl]
            exact WFT.mk List.nodup_nil (by simp)
        · exact hc p hp'

theorem WFT_insertAll (ws : List (List Char)) : WFT (insertAll ws) := by
  rw [insertAll]
  suffices h : ∀ t, WFT t → WFT (ws.foldl insertW t) from h emptyTrie WFT_empty
  induction ws with
  | nil => intro t ht; exact ht
  | cons w rest ih =>
    intro t ht
    exact ih _ (WFT_insChars (low w) t ht)

theorem findPath_some :
    ∀ (q : List Char) (t n : Trie), findPath t q = some n →
      ∀ s, memT n s = memT t (q ++ s)
  | [], t, n, h, s => by
    simp [findPath] at h
    subst h
    rfl
  | c :: rest, .node b cs, n, h, s => by
    simp only [findPath] at h
    cases hcl : childLookup cs c with
    | none => rw [hcl] at h; exact absurd h (by simp)
    | some child =>
      rw [hcl] at h
      rw [findPath_some rest child n h s]
      simp [memT, hcl]

theorem findPath_none :
    ∀ (q : List Char) (t : Trie), findPath t q = none →
      ∀ s, memT t (q ++ s) = false
  | [], t, h, s => by simp [findPath] at h
  | c :: rest, .node b cs, h, s => by
    simp only [findPath] at h
    cases hcl : childLookup cs c with
    | none => simp [memT, hcl]
    | some child =>
      rw [hcl] at h
      simp only [List.cons_append, memT, hcl]
      exact findPath_none rest child h s

theorem findPath_WFT :
    ∀ (q : List Char) (t n : Trie), WFT t → findPath t q = some n → WFT n
  | [], t, n, hw, h => by
    simp [findPath] at h
    subst h
    exact hw
  | c :: rest, .node b cs, n, hw, h => by
    simp only [findPath] at h
    cases hcl : childLookup cs c with
    | none => rw [hcl] at h; exact absurd h (by simp)
    | some child =>
      rw [hcl] at h
      cases hw with
      | mk hk hc =>
        exact findPath_WFT rest child n (hc _ (mem_of_childLookup cs c child hcl)) h

theorem childLookup_of_mem :
    ∀ (cs : List (Char × Trie)), (cs.map Prod.fst).Nodup →
      ∀ (c : Char) (t : Trie), (c, t) ∈ cs → childLookup cs c = some t := by
  intro cs hnd c t h
  induction cs with
  | nil => simp at h
  | cons p rest ih =>
    obtain ⟨e, u⟩ := p
    rcases List.mem_cons.mp h with h' | h'
    · cases h'
      simp [childLookup]
    · by_cases he : e = c
      · subst he
        exfalso
        simp only [List.map_cons, List.nodup_cons] at hnd
        exact hnd.1 (by simpa using List.mem_map_of_mem Prod.fst h')
      · simp only [childLookup, if_neg he]
        exact ih (by simpa using (List.nodup_cons.mp (by simpa using hnd)).2) h'

mutual

theorem collect_mem : ∀ (t : Trie), WFT t → ∀ (pre u : List Char),
    (u ∈ collect t pre ↔ ∃ s, u = pre ++ s ∧ memT t s = true)
  | .node b cs, hw, pre, u => by
    cases hw with
    | mk hk hc =>
      simp only [collect, List.mem_append]
      rw [collectKids_mem cs hc pre u]
      constructor
      · rintro (h1 | ⟨c, child, s, hmem, rfl, hm⟩)
        · cases b with
          | false =>
            rw [if_neg (by simp)] at h1
            exact absurd h1 (List.not_mem_nil u)
          | true =>
            rw [if_pos rfl, List.mem_singleton] at h1
            exact ⟨[], by simp [h1], by simp [memT]⟩
        · refine ⟨c :: s, by simp, ?_⟩
          simp [memT, childLookup_of_mem cs hk c child hmem, hm]
      · rintro ⟨s, rfl, hm⟩
        cases s with
        | nil =>
          left
          simp only [memT] at hm
          simp [hm]
        | cons c s' =>
          right
          simp only [memT] at hm
          cases hcl : childLookup cs c with
          | none => rw [hcl] at hm; exact absurd hm (by simp)
          | some child =>
            rw [hcl] at hm
            exact ⟨c, child, s', mem_of_childLookup cs c child hcl, by simp, hm⟩

theorem collectKids_mem : ∀ (cs : List (Char × Trie)), (∀ p ∈ cs, WFT p.2) →
    ∀ (pre u : List Char),
    (u ∈ collectKids cs pre ↔
      ∃ c child s, (c, child) ∈ cs ∧ u = pre ++ c :: s ∧ memT child s = true)
  | [], _, pre, u => by simp [collectKids]
  | (c, t) :: rest, hc, pre, u => by
    simp only [collectKids, List.mem_append]
    rw [collect_mem t (hc (c, t) (by simp)) (pre ++ [c]) u,
        collectKids_mem rest (fun p hp => hc p (List.mem_cons_of_mem _ hp)) pre u]
    constructor
    · rintro (⟨s, rfl, hm⟩ | ⟨c', child, s, hmem, rfl, hm⟩)
      · exact ⟨c, t, s, by simp, by simp, hm⟩
      · exact ⟨c', child, s, List.mem_cons_of_mem _ hmem, rfl, hm⟩
    · rintro ⟨c', child, s, hmem, rfl, hm⟩
      rcases List.mem_cons.mp hmem with heq | hmem'
      · cases heq
        left
        exact ⟨s, by simp, hm⟩
      · right
        exact ⟨c', child, s, hmem', rfl, hm⟩

end

theorem append_cons_inj {pre : List Char} :
    ∀ {s s' : List Char} {c c' : Char}, pre ++ c :: s = pre ++ c' :: s' → c = c' := by
  induction pre with
  | nil =>
    intro s s' c c' h
    injection h with h1 _
  | cons a pr ih =>
    intro s s' c c' h
    injection h with _ h2
    exact ih h2

mutual

theorem collect_nodup : ∀ (t : Trie), WFT t → ∀ pre, (collect t pre).Nodup
  | .node b cs, hw, pre => by
    cases hw with
    | mk hk hc =>
      simp only [collect]
      refine List.Nodup.append ?_ (collectKids_nodup cs hk hc pre) ?_
      · cases b <;> simp
      · intro x hx1 hx2
        have hx : x = pre := by
          cases b with
          | false =>
            rw [if_neg (by simp)] at hx1
            exact absurd hx1 (List.not_mem_nil x)
          | true =>
            rw [if_pos rfl, List.mem_singleton] at hx1
            exact hx1
        rcases (collectKids_mem cs hc pre x).mp hx2 with ⟨c, child, s, _, heq, _⟩
        rw [hx] at heq
        have hlen := congrArg List.length heq
        simp only [List.length_append, List.length_cons] at hlen
        omega

theorem collectKids_nodup : ∀ (cs : List (Char × Trie)),
    (cs.map Prod.fst).Nodup → (∀ p ∈ cs, WFT p.2) → ∀ pre,
      (collectKids cs pre).Nodup
  | [], _, _, pre => by simp [collectKids]
  | (c, t) :: rest, hk, hc, pre => by
    simp only [collectKids]
    have hk2 : c ∉ rest.map Prod.fst ∧ (rest.map Prod.fst).Nodup := by
      rw [List.map_cons, List.nodup_cons] at hk
      exact hk
    refine List.Nodup.append
      (collect_nodup t (hc (c, t) (by simp)) (pre ++ [c]))
      (collectKids_nodup rest hk2.2 (fun p hp => hc p (List.mem_cons_of_mem _ hp)) pre) ?_
    intro x hx1 hx2
    rcases (collect_mem t (hc (c, t) (by simp)) (pre ++ [c]) x).mp hx1 with ⟨s, rfl, _⟩
    rcases (collectKids_mem rest (fun p hp => hc p (List.mem_cons_of_mem _ hp))
        pre _).mp hx2 with ⟨c', child, s', hmem, heq, _⟩
    rw [List.append_assoc, List.singleton_append] at heq
    have hcc := append_cons_inj heq
    refine hk2.1 ?_
    rw [hcc]
    exact List.mem_map_of_mem Prod.fst hmem

end

theorem lexLe_total : ∀ a b : List Char, (lexLe a b || lexLe b a) = true
  | [], b => by simp [lexLe]
  | a :: as, [] => by simp [lexLe]
  | a :: as, b :: bs => by
    by_cases h : a = b
    · subst h
      simpa [lexLe] using lexLe_total as bs
    · simp only [lexLe, if_neg h, if_neg (Ne.symm h)]
      rcases lt_or_gt_of_ne h with hlt | hgt
      · simp [hlt]
      · simp [not_lt.mpr (le_of_lt hgt), hgt]

theorem lexLe_trans : ∀ a b c : List Char,
    lexLe a b = true → lexLe b c = true → lexLe a c = true
  | [], _, _, _, _ => by simp [lexLe]
  | a :: as, [], c, h1, _ => by simp [lexLe] at h1
  | a :: as, b :: bs, [], _, h2 => by simp [lexLe] at h2
  | a :: as, b :: bs, c :: cs, h1, h2 => by
    by_cases hab : a = b
    · subst hab
      by_cases hac : a = c
      · subst hac
        simp only [lexLe, if_pos rfl] at h1 h2 ⊢
        exact lexLe_trans as bs cs h1 h2
      · simp only [lexLe, if_pos rfl] at h1
        simpa [lexLe, hac] using h2
    · by_cases hbc : b = c
      · subst hbc
        simpa [lexLe, hab] using h1
      · simp only [lexLe, if_neg hab, decide_eq_true_eq] at h1
        simp only [lexLe, if_neg hbc, decide_eq_true_eq] at h2
        have hac : a < c := lt_trans h1 h2
        simp [lexLe, ne_of_lt hac, hac]

theorem lexLe_antisymm : ∀ a b : List Char,
    lexLe a b = true → lexLe b a = true → a = b
  | [], [], _, _ => rfl
  | [], b :: bs, _, h2 => by simp [lexLe] at h2
  | a :: as, [], h1, _ => by simp [lexLe] at h1
  | a :: as, b :: bs, h1, h2 => by
    by_cases h : a = b
    · subst h
      simp only [lexLe, if_pos rfl] at h1 h2
      rw [lexLe_antisymm as bs h1 h2]
    · simp only [lexLe, if_neg h, if_neg (Ne.symm h), decide_eq_true_eq] at h1 h2
      exact absurd h1 (not_lt.mpr (le_of_lt h2))

/-- `lexLe` as a relation. -/
def lexLeP (a b : List Char) : Prop := lexLe a b = true

instance : IsAntisymm (List Char) lexLeP := ⟨lexLe_antisymm⟩

theorem sortWords_sorted (ws : List (List Char)) : (sortWords ws).Sorted lexLeP :=
  List.sorted_mergeSort (fun a b c => lexLe_trans a b c) lexLe_total ws

theorem sortWords_perm (ws : List (List Char)) : (sortWords ws).Perm ws :=
  List.mergeSort_perm ws lexLe

theorem sortWords_eq_of_perm {l₁ l₂ : List (List Char)} (h : l₁.Perm l₂) :
    sortWords l₁ = sortWords l₂ :=
  List.eq_of_perm_of_sorted
    ((sortWords_perm l₁).trans (h.trans (sortWords_perm l₂).symm))
    (sortWords_sorted l₁) (sortWords_sorted l₂)

theorem isPfxB_iff : ∀ p u : List Char, isPfxB p u = true ↔ ∃ s, u = p ++ s
  | [], u => by simp [isPfxB]
  | a :: as, [] => by simp [isPfxB]
  | a :: as, b :: bs => by
    simp only [isPfxB, Bool.and_eq_true, decide_eq_true_eq]
    rw [isPfxB_iff as bs]
    constructor
    · rintro ⟨rfl, s, rfl⟩
      exact ⟨s, rfl⟩
    · rintro ⟨s, heq⟩
      injection heq with hh ht
      exact ⟨hh.symm, s, ht⟩

/-- C2: autocomplete after inserting the word set `ws` returns exactly the
`k` lexicographically smallest members of the case-folded completion set
`{lower w | w ∈ ws, lower p starts lower w}` — all of them when fewer than
`k` exist — in alphabetical order, without duplicates; in particular it is
empty when no inserted word extends the prefix, and re-inserting a word
never duplicates a result. -/
theorem C2_autocomplete_k_smallest (ws : List (List Char)) (p : List Char) (k : Nat) :
    autocompleteT (insertAll ws) p k = autocompleteSpec ws p k := by
  cases hfp : findPath (insertAll ws) (low p) with
  | none =>
    simp only [autocompleteT, autocompleteSpec, hfp]
    have hnil : (ws.map low).filter (fun w => isPfxB (low p) w) = [] := by
      rw [List.filter_eq_nil_iff]
      intro w hw hpfx
      rcases (isPfxB_iff (low p) w).mp hpfx with ⟨s, rfl⟩
      have hmem := memT_insertAll ws (low p ++ s)
      rw [findPath_none (low p) _ hfp s] at hmem
      exact of_decide_eq_false hmem.symm hw
    rw [hnil]
    simp [sortWords, List.mergeSort_nil]
  | some n =>
    simp only [autocompleteT, autocompleteSpec, hfp]
    have hwf : WFT (insertAll ws) := WFT_insertAll ws
    have hwfn : WFT n := findPath_WFT (low p) _ n hwf hfp
    have hperm : (collect n (low p)).Perm
        (((ws.map low).filter (fun w => isPfxB (low p) w)).dedup) := by
      rw [List.perm_ext_iff_of_nodup (collect_nodup n hwfn (low p)) (List.nodup_dedup _)]
      intro u
      rw [collect_mem n hwfn (low p) u, List.mem_dedup, List.mem_filter]
      constructor
      · rintro ⟨s, rfl, hm⟩
        rw [findPath_some (low p) _ n hfp s] at hm
        have := memT_insertAll ws (low p ++ s)
        rw [hm] at this
        refine ⟨by simpa using this.symm, ?_⟩
        exact (isPfxB_iff (low p) _).mpr ⟨s, rfl⟩
      · rintro ⟨hw, hpfx⟩
        rcases (isPfxB_iff (low p) u).mp hpfx with ⟨s, rfl⟩
        refine ⟨s, rfl, ?_⟩
        rw [findPath_some (low p) _ n hfp s]
        rw [memT_insertAll ws (low p ++ s)]
        simpa using hw
    rw [sortWords_eq_of_perm hperm]

end TrieM

namespace BPT

/-- `LeafNode` from src/structures/b_plus_tree.py: parallel `keys` / `values`
lists, plus the Python object identity `lid` (used to model pointers) and the
`next_leaf` pointer `nxt` (identity of the next leaf, `none` at the end). -/
structure Leaf (V : Type) where
  keys : List Nat
  vals : List V
  lid : Nat
  nxt : Option Nat

/-- A B+ tree node: `LeafNode` or `InternalNode` (sorted separator keys and
one more child than keys). -/
inductive BNode (V : Type) where
  | leaf (l : Leaf V)
  | internal (keys : List Nat) (children : List (BNode V))

variable {V : Type}

/-- The scan `while pos < len(keys) and keys[pos] < key` of `LeafNode.insert`. -/
def leafPos (keys : List Nat) (key : Nat) : Nat :=
  (keys.takeWhile (fun k => decide (k < key))).length

/-- `LeafNode.insert` followed by `LeafNode._split` when the node is full
(`len(keys) >= order`).  Returns the updated leaf, the optional split payload
(promoted key and new right leaf) and the updated allocation counter `ctr`
(a fresh Python object identity for the new leaf). -/
def leafInsert (order : Nat) (l : Leaf V) (key : Nat) (v : V) (ctr : Nat) :
    Leaf V × Option (Nat × Leaf V) × Nat :=
  let pos := leafPos l.keys key
  if l.keys.get? pos = some key then
    ({ l with vals := l.vals.set pos v }, none, ctr)
  else
    let keys2 := l.keys.insertIdx pos key
    let vals2 := l.vals.insertIdx pos v
    if order ≤ keys2.length then
      let mid := keys2.length / 2
      match (keys2.drop mid).head? with
      | some promoted =>
        ({ l with keys := keys2.take mid, vals := vals2.take mid, nxt := some ctr },
          some (promoted,
            { keys := keys2.drop mid, vals := vals2.drop mid, lid := ctr, nxt := l.nxt }),
          ctr + 1)
      | none => ({ l with keys := keys2, vals := vals2 }, none, ctr)
    else
      ({ l with keys := keys2, vals := vals2 }, none, ctr)

/-- `InternalNode.find_child_index`: advance while `keys[idx] <= key`. -/
def findChildIdx (keys : List Nat) (key : Nat) : Nat :=
  (keys.takeWhile (fun k => decide (k ≤ key))).length

mutual

/-- `insert(key, value)` on a node.  (`InternalNode.insert` is only ever
called with `child_node=None` — the `else` branch of the Python method is
dead code at every call site — so only that mode is modelled.)  The `none`
fallbacks below correspond to Python `IndexError`s (child index out of
range, no middle key) that cannot occur on well-formed trees. -/
def nodeInsert (order : Nat) : BNode V → Nat → V → Nat →
    BNode V × Option (Nat × BNode V) × Nat
  | .leaf l, key, v, ctr =>
    let r := leafInsert order l key v ctr
    (.leaf r.1, (r.2.1).map (fun p => (p.1, BNode.leaf p.2)), r.2.2)
  | .internal ks cs, key, v, ctr =>
    let idx := findChildIdx ks key
    match childInsert order idx cs key v ctr with
    | none => (.internal ks cs, none, ctr)
    | some (c1, pay, ctr2) =>
      match pay with
      | none => (.internal ks (cs.set idx c1), none, ctr2)
      | some (nk, nc) =>
        let ks2 := ks.insertIdx idx nk
        let cs2 := (cs.set idx c1).insertIdx (idx + 1) nc
        if order ≤ ks2.length then
          let mid := ks2.length / 2
          match ks2.get? mid with
          | some middleKey =>
            (.internal (ks2.take mid) (cs2.take (mid + 1)),
              some (middleKey, .internal (ks2.drop (mid + 1)) (cs2.drop (mid + 1))),
              ctr2)
          | none => (.internal ks2 cs2, none, ctr2)
        else
          (.internal ks2 cs2, none, ctr2)

/-- `self.children[idx].insert(key, value)`: walk to child `idx` and insert
there; `none` models the `IndexError` when the index is out of range. -/
def childInsert (order : Nat) : Nat → List (BNode V) → Nat → V → Nat →
    Option (BNode V × Option (Nat × BNode V) × Nat)
  | _, [], _, _, _ => none
  | 0, c :: _, key, v, ctr => some (nodeInsert order c key v ctr)
  | idx + 1, _ :: cs, key, v, ctr => childInsert order idx cs key v ctr

end

/-- `LeafNode.search`: `keys.index(key)` then `values[idx]`; `None` when the
key is absent. -/
def leafSearch (l : Leaf V) (key : Nat) : Option V :=
  match l.keys.findIdx? (fun k => decide (k = key)) with
  | none => none
  | some i => l.vals.get? i

mutual

/-- `search(key)` on a node (`InternalNode.search` descends via
`find_child_index`). -/
def nodeSearch : BNode V → Nat → Option V
  | .leaf l, key => leafSearch l key
  | .internal ks cs, key => childSearch (findChildIdx ks key) cs key

/-- `self.children[idx].search(key)`: walk to child `idx` and search there;
`none` models the `IndexError` when the index is out of range. -/
def childSearch : Nat → List (BNode V) → Nat → Option V
  | _, [], _ => none
  | 0, c :: _, key => nodeSearch c key
  | idx + 1, _ :: cs, key => childSearch idx cs key

end

/-- `BPlusTree`: the root node plus the allocation counter for leaf
object identities. -/
structure Tree (V : Type) where
  order : Nat
  root : BNode V
  ctr : Nat

/-- `BPlusTree(order)`: a fresh tree whose root is an empty leaf. -/
def mkTree (V : Type) (order : Nat) : Tree V :=
  { order := order, root := .leaf { keys := [], vals := [], lid := 0, nxt := none }, ctr := 1 }

/-- `BPlusTree.insert`: insert at the root; if the root splits, a new
internal root with the promoted key and two children is created. -/
def treeInsert (t : Tree V) (key : Nat) (v : V) : Tree V :=
  let r := nodeInsert t.order t.root key v t.ctr
  match r.2.1 with
  | none => { t with root := r.1, ctr := r.2.2 }
  | some (nk, nn) => { t with root := .internal [nk] [r.1, nn], ctr := r.2.2 }

/-- `BPlusTree.search`. -/
def treeSearch (t : Tree V) (key : Nat) : Option V := nodeSearch t.root key

/-- Run a sequence of `insert(key, value)` calls on a fresh tree. -/
def runInserts (V : Type) (order : Nat) (ops : List (Nat × V)) : Tree V :=
  ops.foldl (fun t p => treeInsert t p.1 p.2) (mkTree V order)

mutual

/-- All leaves of a node, in left-to-right (in-order) position. -/
def leavesOf : BNode V → List (Leaf V)
  | .leaf l => [l]
  | .internal _ cs => leavesOfList cs

def leavesOfList : List (BNode V) → List (Leaf V)
  | [] => []
  | c :: rest => leavesOf c ++ leavesOfList rest

end

/-- The key/value pairs stored in one leaf. -/
def entriesL (l : Leaf V) : List (Nat × V) := l.keys.zip l.vals

/-- All key/value pairs of a subtree in leaf order. -/
def entries (n : BNode V) : List (Nat × V) := ((leavesOf n).map entriesL).flatten

/-- Reference model: insert-or-replace in a key-sorted association list. -/
def upsert (key : Nat) (v : V) : List (Nat × V) → List (Nat × V)
  | [] => [(key, v)]
  | (k, w) :: rest =>
    if k < key then (k, w) :: upsert key v rest
    else if k = key then (key, v) :: rest
    else (key, v) :: (k, w) :: rest

/-- Reference model: first-match association lookup. -/
def alookup (key : Nat) : List (Nat × V) → Option V
  | [] => none
  | p :: rest => if p.1 = key then some p.2 else alookup key rest

/-- Reference model: the value of the last insertion with the given key. -/
def lastWrite (ops : List (Nat × V)) (key : Nat) : Option V :=
  ops.foldl (fun acc p => if p.1 = key then some p.2 else acc) none

/-- Optional inclusive lower bound. -/
def loLe (lo : Option Nat) (k : Nat) : Prop := ∀ a ∈ lo, a ≤ k

/-- Optional exclusive upper bound. -/
def hiGt (hi : Option Nat) (k : Nat) : Prop := ∀ a ∈ hi, k < a

/-- `k` lies in the half-open key range `[lo, hi)`. -/
def inB (lo hi : Option Nat) (k : Nat) : Prop := loLe lo k ∧ hiGt hi k

/-- Optional non-strict upper bound (for separator keys, which may touch the
exclusive upper end of their node's range). -/
def hiGe (hi : Option Nat) (k : Nat) : Prop := ∀ a ∈ hi, k ≤ a

/-- Range condition for a separator key. -/
def sepB (lo hi : Option Nat) (k : Nat) : Prop := loLe lo k ∧ hiGe hi k

/-- Well-formedness of a subtree within a key range: leaf keys are strictly
sorted and in range with aligned value list; an internal node has one more
child than keys and each child is well-formed between the neighbouring
separators (routing is left-inclusive: a key equal to a separator belongs to
the right child, matching `find_child_index`). -/
inductive WF : Option Nat → Option Nat → BNode V → Prop where
  | leaf {lo hi : Option Nat} {l : Leaf V} :
      l.keys.Sorted (· < ·) →
      (∀ k ∈ l.keys, inB lo hi k) →
      l.vals.length = l.keys.length →
      WF lo hi (.leaf l)
  | one {lo hi : Option Nat} {c : BNode V} :
      WF lo hi c → WF lo hi (.internal [] [c])
  | more {lo hi : Option Nat} {k : Nat} {ks : List Nat} {c : BNode V}
      {cs : List (BNode V)} :
      sepB lo hi k →
      WF lo (some k) c →
      WF (some k) hi (.internal ks cs) →
      WF lo hi (.internal (k :: ks) (c :: cs))

end BPT

namespace BPT

variable {V : Type}

theorem get?_decomp :
    ∀ (cs : List (BNode V)) (idx : Nat) (c : BNode V),
      cs.get? idx = some c → cs = cs.take idx ++ c :: cs.drop (idx + 1)
  | [], idx, c, h => by simp at h
  | a :: t, 0, c, h => by
    simp at h
    simp [h]
  | a :: t, idx + 1, c, h => by
    simp only [List.get?_cons_succ] at h
    simpa using get?_decomp t idx c h

theorem set_decomp :
    ∀ (cs : List (BNode V)) (idx : Nat) (c c' : BNode V),
      cs.get? idx = some c → cs.set idx c' = cs.take idx ++ c' :: cs.drop (idx + 1)
  | [], idx, c, c', h => by simp at h
  | a :: t, 0, c, c', h => by simp
  | a :: t, idx + 1, c, c', h => by
    simp only [List.get?_cons_succ] at h
    simpa using set_decomp t idx c c' h

theorem set_insertIdx_decomp :
    ∀ (cs : List (BNode V)) (idx : Nat) (c c' nc : BNode V),
      cs.get? idx = some c →
      (cs.set idx c').insertIdx (idx + 1) nc =
        cs.take idx ++ c' :: nc :: cs.drop (idx + 1)
  | [], idx, c, c', nc, h => by simp at h
  | a :: t, 0, c, c', nc, h => by
    simp [List.insertIdx_succ_cons, List.insertIdx]
  | a :: t, idx + 1, c, c', nc, h => by
    simp only [List.get?_cons_succ] at h
    simp only [List.set_cons_succ, List.insertIdx_succ_cons]
    simpa using set_insertIdx_decomp t idx c c' nc h

theorem insertIdx_decomp :
    ∀ (ks : List Nat) (idx : Nat) (k : Nat), idx ≤ ks.length →
      ks.insertIdx idx k = ks.take idx ++ k :: ks.drop idx
  | ks, 0, k, _ => by simp [List.insertIdx]
  | [], idx + 1, k, h => by simp at h
  | a :: t, idx + 1, k, h => by
    simp only [List.insertIdx_succ_cons]
    simpa using insertIdx_decomp t idx k (by simpa using h)

theorem leavesOfList_append (xs ys : List (BNode V)) :
    leavesOfList (xs ++ ys) = leavesOfList xs ++ leavesOfList ys := by
  induction xs with
  | nil => simp [leavesOfList]
  | cons c t ih => simp [leavesOfList, ih]

/-- Entries of a child list. -/
def entriesNL (cs : List (BNode V)) : List (Nat × V) :=
  ((leavesOfList cs).map entriesL).flatten

theorem entries_internal (ks : List Nat) (cs : List (BNode V)) :
    entries (.internal ks cs) = entriesNL cs := rfl

theorem entriesNL_append (xs ys : List (BNode V)) :
    entriesNL (xs ++ ys) = entriesNL xs ++ entriesNL ys := by
  simp [entriesNL, leavesOfList_append]

theorem entriesNL_cons (c : BNode V) (xs : List (BNode V)) :
    entriesNL (c :: xs) = entries c ++ entriesNL xs := by
  simp [entriesNL, leavesOfList, entries]

theorem zip_take : ∀ (xs : List Nat) (ys : List V) (n : Nat),
    (xs.take n).zip (ys.take n) = (xs.zip ys).take n
  | [], ys, n => by simp
  | xs, [], n => by simp
  | x :: xs, y :: ys, 0 => by simp
  | x :: xs, y :: ys, n + 1 => by
    simp only [List.take_succ_cons, List.zip_cons_cons]
    rw [zip_take xs ys n]

theorem zip_drop : ∀ (xs : List Nat) (ys : List V) (n : Nat),
    (xs.drop n).zip (ys.drop n) = (xs.zip ys).drop n
  | [], ys, n => by simp
  | xs, [], n => by simp
  | x :: xs, y :: ys, 0 => by simp
  | x :: xs, y :: ys, n + 1 => by
    simp only [List.drop_succ_cons, List.zip_cons_cons, List.drop]
    exact zip_drop xs ys n

theorem leafPos_le (keys : List Nat) (key : Nat) : leafPos keys key ≤ keys.length :=
  (List.takeWhile_sublist _).length_le

end BPT

namespace BPT

variable {V : Type}

theorem leafPos_cons_lt {k key : Nat} (kt : List Nat) (h : k < key) :
    leafPos (k :: kt) key = leafPos kt key + 1 := by
  simp [leafPos, List.takeWhile_cons, h]

theorem leafPos_cons_ge {k key : Nat} (kt : List Nat) (h : ¬k < key) :
    leafPos (k :: kt) key = 0 := by
  simp [leafPos, List.takeWhile_cons, h]

theorem zip_set_upsert :
    ∀ (keys : List Nat) (vals : List V) (key : Nat) (v : V),
      vals.length = keys.length →
      keys.get? (leafPos keys key) = some key →
      keys.zip (vals.set (leafPos keys key) v) = upsert key v (keys.zip vals)
  | [], vals, key, v, _, hget => by simp [leafPos] at hget
  | k :: kt, [], key, v, hlen, _ => by simp at hlen
  | k :: kt, w :: wt, key, v, hlen, hget => by
    by_cases h : k < key
    · rw [leafPos_cons_lt kt h] at hget ⊢
      simp only [List.get?_cons_succ] at hget
      simp only [List.set_cons_succ, List.zip_cons_cons, upsert, if_pos h]
      rw [zip_set_upsert kt wt key v (by simpa using hlen) hget]
      rfl
    · rw [leafPos_cons_ge kt h] at hget ⊢
      simp only [List.get?_cons_zero, Option.some.injEq] at hget
      subst hget
      simp only [List.set_cons_zero, List.zip_cons_cons, upsert, if_neg h]
      simp only [if_pos rfl, if_true]
      rfl

theorem zip_insertIdx_upsert :
    ∀ (keys : List Nat) (vals : List V) (key : Nat) (v : V),
      vals.length = keys.length →
      ¬(keys.get? (leafPos keys key) = some key) →
      (keys.insertIdx (leafPos keys key) key).zip
          (vals.insertIdx (leafPos keys key) v) =
        upsert key v (keys.zip vals)
  | [], [], key, v, _, _ => by simp [leafPos, List.insertIdx, upsert]
  | [], w :: wt, key, v, hlen, _ => by simp at hlen
  | k :: kt, [], key, v, hlen, _ => by simp at hlen
  | k :: kt, w :: wt, key, v, hlen, hget => by
    by_cases h : k < key
    · rw [leafPos_cons_lt kt h] at hget ⊢
      simp only [List.get?_cons_succ] at hget
      simp only [List.insertIdx_succ_cons, List.zip_cons_cons, upsert, if_pos h]
      rw [zip_insertIdx_upsert kt wt key v (by simpa using hlen) hget]
      rfl
    · rw [leafPos_cons_ge kt h] at hget ⊢
      simp only [List.get?_cons_zero, Option.some.injEq] at hget
      have hne : ¬k = key := fun he => hget he
      rw [List.insertIdx_zero, List.insertIdx_zero]
      simp only [List.zip_cons_cons, upsert, if_neg h, if_neg hne]
      rfl

/-- Keys appearing in the result of `upsert`. -/
theorem mem_fst_upsert :
    ∀ (es : List (Nat × V)) (key k : Nat) (v : V),
      k ∈ (upsert key v es).map Prod.fst → k = key ∨ k ∈ es.map Prod.fst
  | [], key, k, v, h => by simpa [upsert] using h
  | (k0, w0) :: rest, key, k, v, h => by
    simp only [upsert] at h
    by_cases h1 : k0 < key
    · rw [if_pos h1] at h
      simp only [List.map_cons, List.mem_cons] at h
      rcases h with h | h
      · exact Or.inr (by simp [h])
      · rcases mem_fst_upsert rest key k v h with h' | h'
        · exact Or.inl h'
        · exact Or.inr (by simp [h'])
    · rw [if_neg h1] at h
      by_cases h2 : k0 = key
      · rw [if_pos h2] at h
        simp only [List.map_cons, List.mem_cons] at h
        rcases h with h | h
        · exact Or.inl h
        · exact Or.inr (by simp [h])
      · rw [if_neg h2] at h
        simp only [List.map_cons, List.mem_cons] at h
        rcases h with h | h
        · exact Or.inl h
        · exact Or.inr (by simpa using h)

/-- `upsert` keeps the association list sorted by key. -/
theorem upsert_fst_sorted :
    ∀ (es : List (Nat × V)) (key : Nat) (v : V),
      ((es.map Prod.fst).Sorted (· < ·)) →
      (((upsert key v es).map Prod.fst).Sorted (· < ·))
  | [], key, v, _ => by simp [upsert]
  | (k0, w0) :: rest, key, v, hs => by
    simp only [List.map_cons, List.sorted_cons] at hs
    simp only [upsert]
    by_cases h1 : k0 < key
    · rw [if_pos h1]
      simp only [List.map_cons, List.sorted_cons]
      refine ⟨?_, upsert_fst_sorted rest key v hs.2⟩
      intro b hb
      rcases mem_fst_upsert rest key b v hb with rfl | hb'
      · exact h1
      · exact hs.1 b hb'
    · rw [if_neg h1]
      by_cases h2 : k0 = key
      · rw [if_pos h2]
        subst h2
        simp only [List.map_cons, List.sorted_cons]
        exact ⟨hs.1, hs.2⟩
      · rw [if_neg h2]
        have hk : key < k0 := by omega
        simp only [List.map_cons, List.sorted_cons]
        refine ⟨?_, hs.1, hs.2⟩
        intro b hb
        simp only [List.mem_cons] at hb
        rcases hb with rfl | hb
        · exact hk
        · exact lt_trans hk (hs.1 b hb)

/-- `upsert` keeps all keys within the enclosing range. -/
theorem upsert_fst_bounds :
    ∀ (es : List (Nat × V)) (key : Nat) (v : V) (lo hi : Option Nat),
      (∀ x ∈ es, inB lo hi x.1) → inB lo hi key →
      ∀ x ∈ upsert key v es, inB lo hi x.1
  | [], key, v, lo, hi, _, hk, x, hx => by
    simp [upsert] at hx
    simpa [hx]
  | (k0, w0) :: rest, key, v, lo, hi, hb, hk, x, hx => by
    simp only [upsert] at hx
    by_cases h1 : k0 < key
    · rw [if_pos h1] at hx
      rcases List.mem_cons.mp hx with rfl | hx'
      · exact hb _ (by simp)
      · exact upsert_fst_bounds rest key v lo hi
          (fun y hy => hb y (List.mem_cons_of_mem _ hy)) hk x hx'
    · rw [if_neg h1] at hx
      by_cases h2 : k0 = key
      · rw [if_pos h2] at hx
        rcases List.mem_cons.mp hx with rfl | hx'
        · exact hk
        · exact hb x (List.mem_cons_of_mem _ hx')
      · rw [if_neg h2] at hx
        rcases List.mem_cons.mp hx with rfl | hx'
        · exact hk
        · exact hb x hx'

/-- Localization of `upsert` in a concatenation whose left part has keys
strictly below `key`. -/
theorem upsert_append_left :
    ∀ (A M : List (Nat × V)) (key : Nat) (v : V),
      (∀ x ∈ A, x.1 < key) →
      upsert key v (A ++ M) = A ++ upsert key v M
  | [], M, key, v, _ => by simp
  | (k0, w0) :: A, M, key, v, hA => by
    have h1 : k0 < key := hA (k0, w0) (List.mem_cons_self _ _)
    simp only [List.cons_append, upsert, if_pos h1, List.append_eq]
    rw [upsert_append_left A M key v (fun x hx => hA x (List.mem_cons_of_mem _ hx))]

/-- Localization of `upsert` in a concatenation whose right part has keys
strictly above `key`. -/
theorem upsert_append_right :
    ∀ (M B : List (Nat × V)) (key : Nat) (v : V),
      (∀ x ∈ B, key < x.1) →
      upsert key v (M ++ B) = upsert key v M ++ B
  | [], B, key, v, hB => by
    cases B with
    | nil => simp [upsert]
    | cons b bt =>
      obtain ⟨k0, w0⟩ := b
      have h1 : key < k0 := hB (k0, w0) (List.mem_cons_self _ _)
      simp only [List.nil_append, upsert]
      rw [if_neg (by omega), if_neg (by omega)]
      rfl
  | (k0, w0) :: M, B, key, v, hB => by
    simp only [List.cons_append, upsert, List.append_eq]
    by_cases h1 : k0 < key
    · rw [if_pos h1, if_pos h1, upsert_append_right M B key v hB]
      rfl
    · rw [if_neg h1, if_neg h1]
      by_cases h2 : k0 = key
      · rw [if_pos h2, if_pos h2]
        simp
      · rw [if_neg h2, if_neg h2]
        simp

theorem alookup_append :
    ∀ (A B : List (Nat × V)) (key : Nat),
      alookup key (A ++ B) =
        match alookup key A with
        | some w => some w
        | none => alookup key B
  | [], B, key => by simp [alookup]
  | (k0, w0) :: A, B, key => by
    simp only [List.cons_append, alookup]
    by_cases h : k0 = key
    · simp [h]
    · simp only [if_neg h]
      exact alookup_append A B key

theorem alookup_none_of_lt :
    ∀ (A : List (Nat × V)) (key : Nat), (∀ x ∈ A, x.1 < key) →
      alookup key A = none
  | [], key, _ => rfl
  | (k0, w0) :: A, key, hA => by
    have := hA _ (List.mem_cons_self _ _)
    simp only [alookup, if_neg (by omega : ¬k0 = key)]
    exact alookup_none_of_lt A key (fun x hx => hA x (List.mem_cons_of_mem _ hx))

theorem alookup_none_of_gt :
    ∀ (B : List (Nat × V)) (key : Nat), (∀ x ∈ B, key < x.1) →
      alookup key B = none
  | [], key, _ => rfl
  | (k0, w0) :: B, key, hB => by
    have := hB _ (List.mem_cons_self _ _)
    simp only [alookup, if_neg (by omega : ¬k0 = key)]
    exact alookup_none_of_gt B key (fun x hx => hB x (List.mem_cons_of_mem _ hx))

theorem alookup_upsert :
    ∀ (es : List (Nat × V)) (key k : Nat) (v : V),
      alookup k (upsert key v es) =
        if key = k then some v else alookup k es
  | [], key, k, v => by
    simp only [upsert, alookup]
  | (k0, w0) :: rest, key, k, v => by
    simp only [upsert]
    by_cases h1 : k0 < key
    · rw [if_pos h1]
      simp only [alookup, alookup_upsert rest key k v]
      by_cases hk : k0 = k
      · have hkey : ¬key = k := by omega
        rw [if_pos hk, if_neg hkey, if_pos hk]
      · rw [if_neg hk]
        by_cases hkey : key = k
        · rw [if_pos hkey, if_pos hkey]
        · rw [if_neg hkey, if_neg hkey, if_neg hk]
    · rw [if_neg h1]
      by_cases h2 : k0 = key
      · rw [if_pos h2]
        subst h2
        simp only [alookup]
        by_cases hk : k0 = k
        · rw [if_pos hk, if_pos hk]
        · rw [if_neg hk, if_neg hk, if_neg hk]
      · rw [if_neg h2]
        simp only [alookup]

end BPT

namespace BPT

variable {V : Type}

theorem entries_leaf (l : Leaf V) : entries (.leaf l) = entriesL l := by
  simp [entries, leavesOf]

theorem findChildIdx_nil (key : Nat) : findChildIdx ([] : List Nat) key = 0 := rfl

theorem findChildIdx_cons_le {k key : Nat} (ks : List Nat) (h : k ≤ key) :
    findChildIdx (k :: ks) key = findChildIdx ks key + 1 := by
  simp [findChildIdx, List.takeWhile_cons, h]

theorem findChildIdx_cons_gt {k key : Nat} (ks : List Nat) (h : ¬k ≤ key) :
    findChildIdx (k :: ks) key = 0 := by
  simp [findChildIdx, List.takeWhile_cons, h]

theorem inB_widen_hi {lo hi : Option Nat} {m x : Nat}
    (hx : inB lo (some m) x) (hm : hiGe hi m) : inB lo hi x := by
  refine ⟨hx.1, fun a ha => ?_⟩
  have h1 : x < m := hx.2 m (by simp)
  exact lt_of_lt_of_le h1 (hm a ha)

theorem sepB_widen_hi {lo hi : Option Nat} {m x : Nat}
    (hx : sepB lo (some m) x) (hm : hiGe hi m) : sepB lo hi x := by
  refine ⟨hx.1, fun a ha => ?_⟩
  have h1 : x ≤ m := hx.2 m (by simp)
  exact le_trans h1 (hm a ha)

theorem sepB_widen_lo {lo hi : Option Nat} {m x : Nat}
    (hx : sepB (some m) hi x) (hm : loLe lo m) : sepB lo hi x := by
  refine ⟨fun a ha => ?_, hx.2⟩
  have h1 : m ≤ x := hx.1 m (by simp)
  exact le_trans (hm a ha) h1

theorem inB_widen_lo {lo hi : Option Nat} {m x : Nat}
    (hx : inB (some m) hi x) (hm : loLe lo m) : inB lo hi x := by
  refine ⟨fun a ha => ?_, hx.2⟩
  have h1 : m ≤ x := hx.1 m (by simp)
  exact le_trans (hm a ha) h1

/-- All keys stored under a well-formed node lie in its range. -/
theorem entries_bounds {lo hi : Option Nat} {n : BNode V}
    (hwf : WF lo hi n) : ∀ x ∈ entries n, inB lo hi x.1 := by
  induction hwf with
  | leaf hs hb hv =>
    intro x hx
    rw [entries_leaf] at hx
    rename_i l
    have hx1 : x.1 ∈ l.keys := by
      have := List.mem_map_of_mem Prod.fst hx
      simp only [entriesL] at this
      rwa [List.map_fst_zip _ _ (le_of_eq hv.symm)] at this
    exact hb x.1 hx1
  | one hc ih =>
    intro x hx
    rw [entries_internal] at hx
    rw [entriesNL_cons] at hx
    simp only [entriesNL, leavesOfList, List.map_nil, List.flatten_nil,
      List.append_nil] at hx
    exact ih x hx
  | more hkb hc htail ihc ihtail =>
    intro x hx
    rw [entries_internal, entriesNL_cons] at hx
    rcases List.mem_append.mp hx with hx' | hx'
    · exact inB_widen_hi (ihc x hx') hkb.2
    · exact inB_widen_lo (ihtail x (by rwa [entries_internal])) hkb.1

theorem childSearch_eq_some :
    ∀ (idx : Nat) (cs : List (BNode V)) (key : Nat) (c : BNode V),
      cs.get? idx = some c → childSearch idx cs key = nodeSearch c key
  | _, [], key, c, h => by simp at h
  | 0, c0 :: _, key, c, h => by
    simp only [List.get?_cons_zero, Option.some.injEq] at h
    subst h
    rfl
  | idx + 1, c0 :: cs, key, c, h => by
    simp only [List.get?_cons_succ] at h
    exact childSearch_eq_some idx cs key c h

theorem childSearch_eq_none :
    ∀ (idx : Nat) (cs : List (BNode V)) (key : Nat),
      cs.get? idx = none → childSearch idx cs key = none
  | 0, [], _, _ => rfl
  | _ + 1, [], _, _ => rfl
  | 0, c0 :: _, key, h => by simp at h
  | idx + 1, c0 :: cs, key, h => by
    simp only [List.get?_cons_succ] at h
    exact childSearch_eq_none idx cs key h

theorem nodeSearch_internal_some {ks : List Nat} {cs : List (BNode V)}
    {key : Nat} {c : BNode V}
    (hget : cs.get? (findChildIdx ks key) = some c) :
    nodeSearch (.internal ks cs) key = nodeSearch c key := by
  rw [nodeSearch]
  exact childSearch_eq_some _ cs key c hget

theorem childInsert_eq_some (order : Nat) :
    ∀ (idx : Nat) (cs : List (BNode V)) (key : Nat) (v : V) (ctr : Nat) (c : BNode V),
      cs.get? idx = some c →
      childInsert order idx cs key v ctr = some (nodeInsert order c key v ctr)
  | _, [], key, v, ctr, c, h => by simp at h
  | 0, c0 :: _, key, v, ctr, c, h => by
    simp only [List.get?_cons_zero, Option.some.injEq] at h
    subst h
    rfl
  | idx + 1, c0 :: cs, key, v, ctr, c, h => by
    simp only [List.get?_cons_succ] at h
    exact childInsert_eq_some order idx cs key v ctr c h

theorem nodeInsert_internal_some (order : Nat) {ks : List Nat}
    {cs : List (BNode V)} {key : Nat} (v : V) (ctr : Nat) {c : BNode V}
    (hget : cs.get? (findChildIdx ks key) = some c) :
    nodeInsert order (.internal ks cs) key v ctr =
      (match nodeInsert order c key v ctr with
       | (c1, none, ctr2) =>
         (.internal ks (cs.set (findChildIdx ks key) c1), none, ctr2)
       | (c1, some (nk, nc), ctr2) =>
         let ks2 := ks.insertIdx (findChildIdx ks key) nk
         let cs2 := (cs.set (findChildIdx ks key) c1).insertIdx
           (findChildIdx ks key + 1) nc
         if order ≤ ks2.length then
           match ks2.get? (ks2.length / 2) with
           | some middleKey =>
             (.internal (ks2.take (ks2.length / 2)) (cs2.take (ks2.length / 2 + 1)),
               some (middleKey,
                 .internal (ks2.drop (ks2.length / 2 + 1)) (cs2.drop (ks2.length / 2 + 1))),
               ctr2)
           | none => (.internal ks2 cs2, none, ctr2)
         else (.internal ks2 cs2, none, ctr2)) := by
  have hch : childInsert order (findChildIdx ks key) cs key v ctr =
      some (nodeInsert order c key v ctr) := childInsert_eq_some _ _ cs key v ctr c hget
  rw [nodeInsert, hch]
  rcases hni : nodeInsert order c key v ctr with ⟨c1, pay, ctr2⟩
  cases pay with
  | none => rfl
  | some p =>
    obtain ⟨nk, nc⟩ := p
    rfl

end BPT

namespace BPT

variable {V : Type}

/-- Access/reconstruction lemma for `find_child_index` routing on a
well-formed internal node: the selected child exists, is well-formed on a
sub-range containing the key, entries to its left are strictly below the key
and entries to its right strictly above, and the node stays well-formed when
the child is replaced (optionally together with a promoted key and a new
right sibling). -/
theorem wf_frame :
    ∀ (ks : List Nat) (cs : List (BNode V)) (lo hi : Option Nat) (key : Nat),
      WF lo hi (.internal ks cs) → inB lo hi key →
      ∃ lo' hi' c,
        cs.get? (findChildIdx ks key) = some c ∧
        WF lo' hi' c ∧ inB lo' hi' key ∧
        (∀ x ∈ entriesNL (cs.take (findChildIdx ks key)), x.1 < key) ∧
        (∀ x ∈ entriesNL (cs.drop (findChildIdx ks key + 1)), key < x.1) ∧
        (∀ c', WF lo' hi' c' →
            WF lo hi (.internal ks (cs.set (findChildIdx ks key) c'))) ∧
        (∀ c' nk nc, WF lo' (some nk) c' → WF (some nk) hi' nc → sepB lo' hi' nk →
            WF lo hi (.internal (ks.insertIdx (findChildIdx ks key) nk)
              ((cs.set (findChildIdx ks key) c').insertIdx (findChildIdx ks key + 1) nc)))
  | [], cs, lo, hi, key, hwf, hk => by
    cases hwf with
    | one hc =>
      rename_i c
      refine ⟨lo, hi, c, rfl, hc, hk, ?_, ?_, ?_, ?_⟩
      · intro x hx
        simp [findChildIdx_nil, entriesNL, leavesOfList] at hx
      · intro x hx
        simp [findChildIdx_nil, entriesNL, leavesOfList] at hx
      · intro c' hc'
        exact WF.one hc'
      · intro c' nk nc hc' hnc hnk
        simp only [findChildIdx_nil, List.insertIdx_zero, List.set_cons_zero]
        exact WF.more hnk hc' (WF.one hnc)
  | k :: ks, cs, lo, hi, key, hwf, hk => by
    cases hwf with
    | more hkb hc htail =>
      rename_i c cs'
      by_cases hkey : k ≤ key
      · have hk' : inB (some k) hi key :=
          ⟨fun a ha => by simp at ha; omega, hk.2⟩
        obtain ⟨lo', hi', c0, hget, hwc, hkc, hA, hB, hset, hins⟩ :=
          wf_frame ks cs' (some k) hi key htail hk'
        rw [findChildIdx_cons_le ks hkey]
        refine ⟨lo', hi', c0, by simpa using hget, hwc, hkc, ?_, ?_, ?_, ?_⟩
        · intro x hx
          rw [List.take_succ_cons, entriesNL_cons] at hx
          rcases List.mem_append.mp hx with hx' | hx'
          · have hb := entries_bounds hc x hx'
            have : x.1 < k := hb.2 k (by simp)
            omega
          · exact hA x hx'
        · intro x hx
          rw [List.drop_succ_cons] at hx
          exact hB x hx
        · intro c' hc'
          rw [List.set_cons_succ]
          exact WF.more hkb hc (hset c' hc')
        · intro c' nk nc hc' hnc hnk
          rw [List.insertIdx_succ_cons, List.set_cons_succ, List.insertIdx_succ_cons]
          exact WF.more hkb hc (hins c' nk nc hc' hnc hnk)
      · rw [findChildIdx_cons_gt ks hkey]
        refine ⟨lo, some k, c, rfl, hc, ⟨hk.1, fun a ha => by simp at ha; omega⟩,
          ?_, ?_, ?_, ?_⟩
        · intro x hx
          simp [entriesNL, leavesOfList] at hx
        · intro x hx
          rw [List.drop_succ_cons, List.drop_zero] at hx
          have : k ≤ x.1 :=
            (entries_bounds htail x (by rwa [entries_internal])).1 k (by simp)
          omega
        · intro c' hc'
          rw [List.set_cons_zero]
          exact WF.more hkb hc' htail
        · intro c' nk nc hc' hnc hnk
          rw [List.set_cons_zero, List.insertIdx_zero, List.insertIdx_succ_cons,
            List.insertIdx_zero]
          have hnk' : sepB lo hi nk := sepB_widen_hi hnk hkb.2
          refine WF.more hnk' hc' ?_
          refine WF.more ⟨fun a ha => by simp at ha; subst ha; exact hnk.2 k (by simp), hkb.2⟩ hnc htail

end BPT

namespace BPT

variable {V : Type}

/-- Splitting a well-formed internal node at a middle key yields two
well-formed halves separated by that key. -/
theorem wf_split :
    ∀ (ks : List Nat) (cs : List (BNode V)) (lo hi : Option Nat) (mid mk : Nat),
      WF lo hi (.internal ks cs) → ks.get? mid = some mk →
      WF lo (some mk) (.internal (ks.take mid) (cs.take (mid + 1))) ∧
      WF (some mk) hi (.internal (ks.drop (mid + 1)) (cs.drop (mid + 1))) ∧
      sepB lo hi mk
  | [], cs, lo, hi, mid, mk, hwf, hget => by simp at hget
  | k :: ks, cs, lo, hi, 0, mk, hwf, hget => by
    cases hwf with
    | more hkb hc htail =>
      simp only [List.get?_cons_zero, Option.some.injEq] at hget
      subst hget
      refine ⟨?_, ?_, hkb⟩
      · simpa using WF.one hc
      · simpa using htail
  | k :: ks, cs, lo, hi, mid + 1, mk, hwf, hget => by
    cases hwf with
    | more hkb hc htail =>
      rename_i c cs'
      simp only [List.get?_cons_succ] at hget
      obtain ⟨hl, hr, hmk⟩ := wf_split ks cs' (some k) hi mid mk htail hget
      have hkmk : k ≤ mk := hmk.1 k (by simp)
      refine ⟨?_, ?_, sepB_widen_lo hmk hkb.1⟩
      · rw [List.take_succ_cons, List.take_succ_cons]
        exact WF.more ⟨hkb.1, fun a ha => by simp at ha; omega⟩ hc hl
      · rw [List.drop_succ_cons, List.drop_succ_cons]
        exact hr

/-- Entries of a node split into the two halves. -/
theorem entries_split (ks2 : List Nat) (cs2 : List (BNode V)) (mid : Nat) :
    entries (.internal (ks2.take mid) (cs2.take (mid + 1))) ++
      entries (.internal (ks2.drop (mid + 1)) (cs2.drop (mid + 1))) =
      entries (.internal ks2 cs2) := by
  rw [entries_internal, entries_internal, entries_internal, ← entriesNL_append,
    List.take_append_drop]

end BPT

namespace BPT

variable {V : Type}

/-- Contract of one `insert` call on a node: either no split happened and the
node stays well-formed with its entries updated by `upsert`, or it split into
two well-formed halves around the promoted key, jointly carrying the updated
entries. -/
def InsOut (lo hi : Option Nat) (key : Nat) (v : V) (n : BNode V)
    (out : BNode V × Option (Nat × BNode V) × Nat) : Prop :=
  match out with
  | (n', none, _) => WF lo hi n' ∧ entries n' = upsert key v (entries n)
  | (n', some (pk, pn), _) =>
      WF lo (some pk) n' ∧ WF (some pk) hi pn ∧ sepB lo hi pk ∧
      entries n' ++ entries pn = upsert key v (entries n)

theorem leafInsert_spec (order : Nat) (l : Leaf V) (key : Nat) (v : V) (ctr : Nat)
    (lo hi : Option Nat)
    (hs : l.keys.Sorted (· < ·)) (hb : ∀ k ∈ l.keys, inB lo hi k)
    (hv : l.vals.length = l.keys.length) (hk : inB lo hi key) :
    InsOut lo hi key v (.leaf l)
      (nodeInsert order (.leaf l) key v ctr) := by
  have hposk : leafPos l.keys key ≤ l.keys.length := leafPos_le l.keys key
  have hposv : leafPos l.keys key ≤ l.vals.length := by omega
  have hmapfst : (l.keys.zip l.vals).map Prod.fst = l.keys :=
    List.map_fst_zip _ _ (le_of_eq hv.symm)
  simp only [nodeInsert, leafInsert]
  by_cases hup : l.keys.get? (leafPos l.keys key) = some key
  · rw [if_pos hup]
    simp only [InsOut, Option.map_none]
    constructor
    · refine WF.leaf hs hb ?_
      simp [List.length_set, hv]
    · rw [entries_leaf, entries_leaf]
      exact zip_set_upsert l.keys l.vals key v hv hup
  · rw [if_neg hup]
    have hlen2 : (l.keys.insertIdx (leafPos l.keys key) key).length =
        l.keys.length + 1 := List.length_insertIdx _ _ hposk
    have hlenv2 : (l.vals.insertIdx (leafPos l.keys key) v).length =
        l.keys.length + 1 := by
      rw [List.length_insertIdx _ _ hposv, hv]
    have hzip : (l.keys.insertIdx (leafPos l.keys key) key).zip
        (l.vals.insertIdx (leafPos l.keys key) v) =
        upsert key v (l.keys.zip l.vals) :=
      zip_insertIdx_upsert l.keys l.vals key v hv hup
    have hmap2 : ((l.keys.insertIdx (leafPos l.keys key) key).zip
        (l.vals.insertIdx (leafPos l.keys key) v)).map Prod.fst =
        l.keys.insertIdx (leafPos l.keys key) key :=
      List.map_fst_zip _ _ (by omega)
    have hsk2 : (l.keys.insertIdx (leafPos l.keys key) key).Sorted (· < ·) := by
      rw [← hmap2, hzip]
      refine upsert_fst_sorted _ key v ?_
      rwa [hmapfst]
    have hkb2 : ∀ k ∈ l.keys.insertIdx (leafPos l.keys key) key, inB lo hi k := by
      intro k hkm
      rw [← hmap2, hzip] at hkm
      rcases List.mem_map.mp hkm with ⟨x, hx, rfl⟩
      refine upsert_fst_bounds _ key v lo hi ?_ hk x hx
      intro y hy
      have : y.1 ∈ l.keys := by
        rw [← hmapfst]
        exact List.mem_map_of_mem Prod.fst hy
      exact hb _ this
    by_cases hfull : order ≤ (l.keys.insertIdx (leafPos l.keys key) key).length
    · rw [if_pos hfull]
      cases hhd : ((l.keys.insertIdx (leafPos l.keys key) key).drop
          ((l.keys.insertIdx (leafPos l.keys key) key).length / 2)).head? with
      | none =>
        exfalso
        rw [List.head?_eq_none_iff, List.drop_eq_nil_iff] at hhd
        omega
      | some pk =>
        simp only [InsOut, Option.map_some]
        have hpk_mem : pk ∈ l.keys.insertIdx (leafPos l.keys key) key := by
          have := List.mem_of_mem_head? hhd
          exact (List.drop_sublist _ _).subset this
        have hsplit := List.take_append_drop
          ((l.keys.insertIdx (leafPos l.keys key) key).length / 2)
          (l.keys.insertIdx (leafPos l.keys key) key)
        have hparts : ((l.keys.insertIdx (leafPos l.keys key) key).take
              ((l.keys.insertIdx (leafPos l.keys key) key).length / 2)).Sorted (· < ·) ∧
            ((l.keys.insertIdx (leafPos l.keys key) key).drop
              ((l.keys.insertIdx (leafPos l.keys key) key).length / 2)).Sorted (· < ·) ∧
            ∀ a ∈ (l.keys.insertIdx (leafPos l.keys key) key).take
              ((l.keys.insertIdx (leafPos l.keys key) key).length / 2),
              ∀ b ∈ (l.keys.insertIdx (leafPos l.keys key) key).drop
                ((l.keys.insertIdx (leafPos l.keys key) key).length / 2), a < b := by
          have := hsk2
          rw [← hsplit] at this
          rw [List.Sorted, List.pairwise_append] at this
          exact this
        obtain ⟨hsl, hsr, hcross⟩ := hparts
        refine ⟨?_, ?_, ?_, ?_⟩
        · refine WF.leaf hsl ?_ ?_
          · intro k hkm
            refine ⟨(hkb2 k ((List.take_sublist _ _).subset hkm)).1, ?_⟩
            intro a ha
            simp only [Option.mem_def, Option.some.injEq] at ha
            subst ha
            exact hcross k hkm pk (List.mem_of_mem_head? hhd)
          · simp [List.length_take, hlen2, hlenv2]
        · refine WF.leaf hsr ?_ ?_
          · intro k hkm
            refine ⟨?_, (hkb2 k ((List.drop_sublist _ _).subset hkm)).2⟩
            intro a ha
            simp only [Option.mem_def, Option.some.injEq] at ha
            subst ha
            have hdshape := hhd
            rcases hdd : (l.keys.insertIdx (leafPos l.keys key) key).drop
                ((l.keys.insertIdx (leafPos l.keys key) key).length / 2) with _ | ⟨h0, ht⟩
            · rw [hdd] at hkm
              simp at hkm
            · rw [hdd] at hdshape hkm
              simp only [List.head?_cons, Option.some.injEq] at hdshape
              subst hdshape
              rcases List.mem_cons.mp hkm with rfl | hkm'
              · exact le_refl _
              · rw [hdd, List.sorted_cons] at hsr
                exact le_of_lt (hsr.1 k hkm')
          · simp only [List.length_drop, hlen2, hlenv2]
        · have := hkb2 pk hpk_mem
          exact ⟨this.1, fun a ha => le_of_lt (this.2 a ha)⟩
        · rw [entries_leaf, entries_leaf, entries_leaf, entriesL, entriesL, entriesL]
          rw [zip_take, zip_drop, hzip, List.take_append_drop]
    · rw [if_neg hfull]
      simp only [InsOut, Option.map_none]
      constructor
      · exact WF.leaf hsk2 hkb2 (hlenv2.trans hlen2.symm)
      · rw [entries_leaf, entries_leaf, entriesL, entriesL, hzip]

end BPT

namespace BPT

variable {V : Type}

theorem findChildIdx_le (ks : List Nat) (key : Nat) :
    findChildIdx ks key ≤ ks.length :=
  (List.takeWhile_sublist _).length_le

/-- Master correctness lemma for `insert` on a well-formed node. -/
theorem nodeInsert_spec (order : Nat) :
    ∀ (n : BNode V) (lo hi : Option Nat) (key : Nat) (v : V) (ctr : Nat),
      WF lo hi n → inB lo hi key →
      InsOut lo hi key v n (nodeInsert order n key v ctr)
  | .leaf l, lo, hi, key, v, ctr, hwf, hk => by
    cases hwf with
    | leaf hs hb hv => exact leafInsert_spec order l key v ctr lo hi hs hb hv hk
  | .internal ks cs, lo, hi, key, v, ctr, hwf, hk => by
    obtain ⟨lo', hi', c, hget, hwc, hkc, hA, hB, hset, hins⟩ :=
      wf_frame ks cs lo hi key hwf hk
    have hsz := List.sizeOf_lt_of_mem (List.get?_mem hget)
    have ih := nodeInsert_spec order c lo' hi' key v ctr hwc hkc
    rw [nodeInsert_internal_some order v ctr hget]
    have hdec : entries (.internal ks cs) =
        entriesNL (cs.take (findChildIdx ks key)) ++
          (entries c ++ entriesNL (cs.drop (findChildIdx ks key + 1))) := by
      conv_lhs => rw [entries_internal, get?_decomp cs _ c hget]
      rw [entriesNL_append, entriesNL_cons]
    have hupsert_loc :
        upsert key v (entries (.internal ks cs)) =
          entriesNL (cs.take (findChildIdx ks key)) ++
            (upsert key v (entries c) ++
              entriesNL (cs.drop (findChildIdx ks key + 1))) := by
      rw [hdec, upsert_append_left _ _ key v hA, upsert_append_right _ _ key v hB]
    rcases hni : nodeInsert order c key v ctr with ⟨c1, pay, ctr2⟩
    rw [hni] at ih
    cases pay with
    | none =>
      obtain ⟨hwf1, hent⟩ := ih
      refine ⟨hset c1 hwf1, ?_⟩
      rw [entries_internal, set_decomp cs _ c c1 hget, entriesNL_append,
        entriesNL_cons, hupsert_loc, hent]
    | some p =>
      obtain ⟨nk, nc⟩ := p
      obtain ⟨hw1, hw2, hsep, hent⟩ := ih
      have hentin :
          entries (.internal (ks.insertIdx (findChildIdx ks key) nk)
              ((cs.set (findChildIdx ks key) c1).insertIdx (findChildIdx ks key + 1) nc)) =
            upsert key v (entries (.internal ks cs)) := by
        rw [entries_internal, set_insertIdx_decomp cs _ c c1 nc hget,
          entriesNL_append, entriesNL_cons, entriesNL_cons, hupsert_loc, ← hent,
          List.append_assoc]
      have hwfin := hins c1 nk nc hw1 hw2 hsep
      simp only []
      by_cases hfull : order ≤ (ks.insertIdx (findChildIdx ks key) nk).length
      · rw [if_pos hfull]
        have hlen2 : (ks.insertIdx (findChildIdx ks key) nk).length = ks.length + 1 :=
          List.length_insertIdx _ _ (findChildIdx_le ks key)
        have hmidlt : (ks.insertIdx (findChildIdx ks key) nk).length / 2 <
            (ks.insertIdx (findChildIdx ks key) nk).length := by omega
        cases hmk : (ks.insertIdx (findChildIdx ks key) nk).get?
            ((ks.insertIdx (findChildIdx ks key) nk).length / 2) with
        | none =>
          exfalso
          rw [List.get?_eq_none] at hmk
          omega
        | some mk =>
          obtain ⟨hL, hR, hmkb⟩ := wf_split _ _ lo hi _ mk hwfin hmk
          refine ⟨hL, hR, hmkb, ?_⟩
          rw [entries_split, hentin]
      · rw [if_neg hfull]
        exact ⟨hwfin, hentin⟩
termination_by n _ _ _ _ _ => sizeOf n
decreasing_by
  simp only [BNode.internal.sizeOf_spec]
  omega

end BPT

namespace BPT

variable {V : Type}

theorem leafSearch_eq :
    ∀ (keys : List Nat) (vals : List V) (key : Nat),
      vals.length = keys.length →
      (match keys.findIdx? (fun k => decide (k = key)) with
       | none => none
       | some i => vals.get? i) = alookup key (keys.zip vals)
  | [], [], key, _ => by simp [alookup]
  | [], w :: wt, key, h => by simp at h
  | k :: kt, [], key, h => by simp at h
  | k :: kt, w :: wt, key, h => by
    by_cases hkk : k = key
    · subst hkk
      simp [List.findIdx?_cons, alookup]
    · rw [List.zip_cons_cons, alookup.eq_def]
      simp only [if_neg hkk]
      rw [← leafSearch_eq kt wt key (by simpa using h)]
      rw [List.findIdx?_cons]
      simp only [decide_eq_true_eq, hkk, if_false]
      cases hf : kt.findIdx? (fun k => decide (k = key)) with
      | none => simp [hf]
      | some i => simp [hf]

theorem nodeSearch_internal_none {ks : List Nat} {cs : List (BNode V)} {key : Nat}
    (hget : cs.get? (findChildIdx ks key) = none) :
    nodeSearch (.internal ks cs) key = none := by
  rw [nodeSearch]
  exact childSearch_eq_none _ cs key hget

theorem nodeSearch_cons_le {k key : Nat} {ks : List Nat} {c : BNode V}
    {cs : List (BNode V)} (h : k ≤ key) :
    nodeSearch (.internal (k :: ks) (c :: cs)) key =
      nodeSearch (.internal ks cs) key := by
  cases hg : cs.get? (findChildIdx ks key) with
  | none =>
    rw [nodeSearch_internal_none hg, nodeSearch_internal_none]
    rw [findChildIdx_cons_le ks h]
    simpa using hg
  | some c0 =>
    rw [nodeSearch_internal_some hg, nodeSearch_internal_some]
    rw [findChildIdx_cons_le ks h]
    simpa using hg

/-- `search` on a well-formed node equals association lookup in its entries. -/
theorem nodeSearch_spec :
    ∀ (n : BNode V) (lo hi : Option Nat) (key : Nat), WF lo hi n →
      nodeSearch n key = alookup key (entries n)
  | .leaf l, lo, hi, key, hwf => by
    cases hwf with
    | leaf hs hb hv =>
      rw [entries_leaf, entriesL]
      rw [nodeSearch, leafSearch]
      exact leafSearch_eq l.keys l.vals key hv
  | .internal ks cs, lo, hi, key, hwf => by
    cases hwf with
    | one hc =>
      rename_i c
      rw [nodeSearch_internal_some (by rfl : ([c] : List (BNode V)).get? 0 = some c)]
      rw [nodeSearch_spec c lo hi key hc]
      rw [entries_internal, entriesNL_cons]
      simp [entriesNL, leavesOfList]
    | more hkb hc htail =>
      rename_i k ks' c cs'
      rw [entries_internal, entriesNL_cons, alookup_append]
      by_cases hkey : k ≤ key
      · rw [nodeSearch_cons_le hkey, nodeSearch_spec _ (some k) hi key htail]
        have hnone : alookup key (entries c) = none := by
          refine alookup_none_of_lt _ key ?_
          intro x hx
          have := (entries_bounds hc x hx).2 k (by simp)
          omega
        rw [hnone, entries_internal]
      · rw [nodeSearch_internal_some (show
            (c :: cs').get? (findChildIdx (k :: ks') key) = some c by
          rw [findChildIdx_cons_gt ks' hkey]
          rfl)]
        rw [nodeSearch_spec c lo (some k) key hc]
        have hnone : alookup key (entriesNL cs') = none := by
          refine alookup_none_of_gt _ key ?_
          intro x hx
          have := (entries_bounds htail x (by rwa [entries_internal])).1 k (by simp)
          omega
        rw [hnone]
        cases alookup key (entries c) <;> rfl

/-- Tree-level well-formedness. -/
def TreeWF (t : Tree V) : Prop := WF none none t.root

theorem treeInsert_wf_entries (t : Tree V) (key : Nat) (v : V) (hwf : TreeWF t) :
    TreeWF (treeInsert t key v) ∧
      entries (treeInsert t key v).root = upsert key v (entries t.root) := by
  have hk : inB none none key := ⟨by simp [loLe], by simp [hiGt]⟩
  have hspec := nodeInsert_spec t.order t.root none none key v t.ctr hwf hk
  rw [treeInsert]
  rcases hni : nodeInsert t.order t.root key v t.ctr with ⟨n1, pay, ctr2⟩
  rw [hni] at hspec
  cases pay with
  | none => exact ⟨hspec.1, hspec.2⟩
  | some p =>
    obtain ⟨nk, nn⟩ := p
    obtain ⟨h1, h2, hsep, hent⟩ := hspec
    constructor
    · exact WF.more ⟨by simp [loLe], by simp [hiGe]⟩ h1 (WF.one h2)
    · show entries (.internal [nk] [n1, nn]) = _
      rw [entries_internal, entriesNL_cons, entriesNL_cons]
      simp only [entriesNL, leavesOfList, List.map_nil, List.flatten_nil,
        List.append_nil]
      exact hent

theorem runInserts_wf_entries (order : Nat) (ops : List (Nat × V)) :
    TreeWF (runInserts V order ops) ∧
      entries (runInserts V order ops).root =
        ops.foldl (fun es p => upsert p.1 p.2 es) [] := by
  rw [runInserts]
  suffices h : ∀ t : Tree V, TreeWF t →
      TreeWF (ops.foldl (fun t p => treeInsert t p.1 p.2) t) ∧
      entries (ops.foldl (fun t p => treeInsert t p.1 p.2) t).root =
        ops.foldl (fun es p => upsert p.1 p.2 es) (entries t.root) by
    have hwf0 : TreeWF (mkTree V order) := by
      refine WF.leaf ?_ ?_ ?_ <;> simp [mkTree]
    have := h (mkTree V order) hwf0
    rwa [show entries (mkTree V order).root = [] from rfl] at this
  induction ops with
  | nil => intro t ht; exact ⟨ht, rfl⟩
  | cons p rest ih =>
    intro t ht
    obtain ⟨h1, h2⟩ := treeInsert_wf_entries t p.1 p.2 ht
    simp only [List.foldl_cons]
    obtain ⟨h3, h4⟩ := ih (treeInsert t p.1 p.2) h1
    exact ⟨h3, by rw [h4, h2]⟩

theorem alookup_foldl_upsert (ops : List (Nat × V)) (key : Nat) :
    ∀ es, alookup key (ops.foldl (fun es p => upsert p.1 p.2 es) es) =
      ops.foldl (fun acc p => if p.1 = key then some p.2 else acc) (alookup key es) := by
  induction ops with
  | nil => intro es; rfl
  | cons p rest ih =>
    intro es
    simp only [List.foldl_cons]
    rw [ih (upsert p.1 p.2 es), alookup_upsert]

theorem entries_fst_sorted {lo hi : Option Nat} {n : BNode V} (hwf : WF lo hi n) :
    ((entries n).map Prod.fst).Sorted (· < ·) := by
  induction hwf with
  | leaf hs hb hv =>
    rw [entries_leaf, entriesL]
    rwa [List.map_fst_zip _ _ (le_of_eq hv.symm)]
  | one hc ih =>
    rw [entries_internal, entriesNL_cons]
    simpa [entriesNL, leavesOfList] using ih
  | more hkb hc htail ihc ihtail =>
    rename_i k ks' c cs'
    rw [entries_internal, entriesNL_cons, List.map_append, List.Sorted,
      List.pairwise_append]
    refine ⟨ihc, by rwa [entries_internal] at ihtail, ?_⟩
    intro a ha b hb
    rcases List.mem_map.mp ha with ⟨x, hx, rfl⟩
    rcases List.mem_map.mp hb with ⟨y, hy, rfl⟩
    have h1 : x.1 < k := (entries_bounds hc x hx).2 k (by simp)
    have h2 : k ≤ y.1 :=
      (entries_bounds htail y (by rwa [entries_internal])).1 k (by simp)
    omega

/-- C1: B+Tree retrievability with last-writer-wins.  For every sequence of
`insert(key, value)` calls on a fresh `BPlusTree` (any node order, any keys,
any length, covering leaf, internal and root splits), `search(k)` afterwards
returns the value of the last insertion with key `k`, and `None` when `k` was
never inserted; keys are never duplicated in the tree. -/
theorem C1_bplustree_last_writer_wins (V : Type) (order : Nat)
    (ops : List (Nat × V)) (key : Nat) :
    treeSearch (runInserts V order ops) key = lastWrite ops key ∧
    ((entries (runInserts V order ops).root).map Prod.fst).Nodup := by
  obtain ⟨hwf, hent⟩ := runInserts_wf_entries order ops
  constructor
  · rw [treeSearch, nodeSearch_spec _ none none key hwf, hent,
      alookup_foldl_upsert ops key [], lastWrite]
    rfl
  · exact (entries_fst_sorted hwf).nodup

end BPT

namespace BPT

variable {V : Type}

/-- Does a node have the internal kind? -/
def isInternalB : BNode V → Bool
  | .leaf _ => false
  | .internal _ _ => true

mutual

/-- Occupancy bound: every node of the subtree holds fewer than `order`
keys. -/
def Occ (order : Nat) : BNode V → Prop
  | .leaf l => l.keys.length < order
  | .internal ks cs => ks.length < order ∧ OccList order cs

def OccList (order : Nat) : List (BNode V) → Prop
  | [] => True
  | c :: rest => Occ order c ∧ OccList order rest

end

theorem Occ_leaf (order : Nat) (l : Leaf V) :
    Occ order (.leaf l) ↔ l.keys.length < order := Iff.rfl

theorem Occ_internal (order : Nat) (ks : List Nat) (cs : List (BNode V)) :
    Occ order (.internal ks cs) ↔ ks.length < order ∧ OccList order cs := Iff.rfl

theorem OccList_nil (order : Nat) : OccList (V := V) order [] ↔ True := Iff.rfl

theorem OccList_cons (order : Nat) (c : BNode V) (rest : List (BNode V)) :
    OccList order (c :: rest) ↔ Occ order c ∧ OccList order rest := Iff.rfl

theorem OccList_iff (order : Nat) :
    ∀ cs : List (BNode V), OccList order cs ↔ ∀ c ∈ cs, Occ order c
  | [] => by simp [OccList_nil]
  | c :: rest => by
    rw [OccList_cons, OccList_iff order rest]
    constructor
    · rintro ⟨h1, h2⟩ x hx
      rcases List.mem_cons.mp hx with rfl | hx'
      exacts [h1, h2 x hx']
    · intro h
      exact ⟨h c (by simp), fun x hx => h x (List.mem_cons_of_mem _ hx)⟩

theorem childInsert_eq_none (order : Nat) :
    ∀ (idx : Nat) (cs : List (BNode V)) (key : Nat) (v : V) (ctr : Nat),
      cs.get? idx = none → childInsert order idx cs key v ctr = none
  | 0, [], _, _, _, _ => rfl
  | _ + 1, [], _, _, _, _ => rfl
  | 0, c0 :: _, _, _, _, h => by simp at h
  | idx + 1, c0 :: cs, key, v, ctr, h => by
    simp only [List.get?_cons_succ] at h
    exact childInsert_eq_none order idx cs key v ctr h

/-- With `order ≥ 2`, one insert keeps every node below `order` keys (a node
that reaches `order` keys is split into two halves of at most `order − 1`). -/
theorem occ_insert (order : Nat) (h2 : 2 ≤ order) :
    ∀ (n : BNode V) (key : Nat) (v : V) (ctr : Nat), Occ order n →
      (match nodeInsert order n key v ctr with
       | (n', none, _) => Occ order n'
       | (n', some (_, pn), _) => Occ order n' ∧ Occ order pn)
  | .leaf l, key, v, ctr, ho => by
    rw [Occ_leaf] at ho
    have hposk : leafPos l.keys key ≤ l.keys.length := leafPos_le l.keys key
    have hlen2 : (l.keys.insertIdx (leafPos l.keys key) key).length =
        l.keys.length + 1 := List.length_insertIdx _ _ hposk
    simp only [nodeInsert, leafInsert]
    by_cases hup : l.keys.get? (leafPos l.keys key) = some key
    · rw [if_pos hup]
      simp only [Occ_leaf]
      exact ho
    · rw [if_neg hup]
      by_cases hfull : order ≤ (l.keys.insertIdx (leafPos l.keys key) key).length
      · rw [if_pos hfull]
        cases hhd : ((l.keys.insertIdx (leafPos l.keys key) key).drop
            ((l.keys.insertIdx (leafPos l.keys key) key).length / 2)).head? with
        | none =>
          exfalso
          rw [List.head?_eq_none_iff, List.drop_eq_nil_iff] at hhd
          omega
        | some pk =>
          refine ⟨?_, ?_⟩
          · simp only [Occ_leaf, List.length_take]
            omega
          · simp only [Occ_leaf, List.length_drop]
            omega
      · rw [if_neg hfull]
        show (l.keys.insertIdx (leafPos l.keys key) key).length < order
        omega
  | .internal ks cs, key, v, ctr, ho => by
    rw [Occ_internal] at ho
    cases hg : cs.get? (findChildIdx ks key) with
    | none =>
      rw [nodeInsert, childInsert_eq_none order _ cs key v ctr hg]
      exact ⟨ho.1, ho.2⟩
    | some c =>
      have hsz := List.sizeOf_lt_of_mem (List.get?_mem hg)
      have hoc : Occ order c := (OccList_iff order cs).mp ho.2 c (List.get?_mem hg)
      have ih := occ_insert order h2 c key v ctr hoc
      rw [nodeInsert_internal_some order v ctr hg]
      rcases hni : nodeInsert order c key v ctr with ⟨c1, pay, ctr2⟩
      rw [hni] at ih
      cases pay with
      | none =>
        simp only [Occ_internal]
        refine ⟨ho.1, ?_⟩
        rw [OccList_iff]
        intro x hx
        rw [set_decomp cs _ c c1 hg] at hx
        rcases List.mem_append.mp hx with hx' | hx'
        · exact (OccList_iff order cs).mp ho.2 x ((List.take_sublist _ _).subset hx')
        · rcases List.mem_cons.mp hx' with rfl | hx''
          · exact ih
          · exact (OccList_iff order cs).mp ho.2 x ((List.drop_sublist _ _).subset hx'')
      | some p =>
        obtain ⟨nk, nc⟩ := p
        obtain ⟨ih1, ih2⟩ := ih
        have hlen2 : (ks.insertIdx (findChildIdx ks key) nk).length = ks.length + 1 :=
          List.length_insertIdx _ _ (findChildIdx_le ks key)
        have hmem2 : ∀ x ∈ (cs.set (findChildIdx ks key) c1).insertIdx
            (findChildIdx ks key + 1) nc, Occ order x := by
          intro x hx
          rw [set_insertIdx_decomp cs _ c c1 nc hg] at hx
          rcases List.mem_append.mp hx with hx' | hx'
          · exact (OccList_iff order cs).mp ho.2 x ((List.take_sublist _ _).subset hx')
          · rcases List.mem_cons.mp hx' with rfl | hx''
            · exact ih1
            · rcases List.mem_cons.mp hx'' with rfl | hx3
              · exact ih2
              · exact (OccList_iff order cs).mp ho.2 x
                  ((List.drop_sublist _ _).subset hx3)
        simp only []
        by_cases hfull : order ≤ (ks.insertIdx (findChildIdx ks key) nk).length
        · rw [if_pos hfull]
          cases hmk : (ks.insertIdx (findChildIdx ks key) nk).get?
              ((ks.insertIdx (findChildIdx ks key) nk).length / 2) with
          | none =>
            exfalso
            rw [List.get?_eq_none] at hmk
            omega
          | some mk =>
            simp only [Occ_internal]
            refine ⟨⟨?_, ?_⟩, ⟨?_, ?_⟩⟩
            · rw [List.length_take]
              omega
            · rw [OccList_iff]
              intro x hx
              exact hmem2 x ((List.take_sublist _ _).subset hx)
            · rw [List.length_drop]
              omega
            · rw [OccList_iff]
              intro x hx
              exact hmem2 x ((List.drop_sublist _ _).subset hx)
        · rw [if_neg hfull]
          simp only [Occ_internal]
          refine ⟨by omega, ?_⟩
          rw [OccList_iff]
          exact hmem2
termination_by n _ _ _ _ => sizeOf n
decreasing_by
  simp only [BNode.internal.sizeOf_spec]
  omega

/-- Tree-level occupancy. -/
def TreeOcc (t : Tree V) : Prop := Occ t.order t.root

theorem treeInsert_occ (t : Tree V) (key : Nat) (v : V) (h2 : 2 ≤ t.order)
    (ho : TreeOcc t) : TreeOcc (treeInsert t key v) := by
  have h := occ_insert t.order h2 t.root key v t.ctr ho
  rw [treeInsert]
  rcases hni : nodeInsert t.order t.root key v t.ctr with ⟨n1, pay, ctr2⟩
  rw [hni] at h
  cases pay with
  | none => exact h
  | some p =>
    obtain ⟨nk, nn⟩ := p
    show Occ t.order (.internal [nk] [n1, nn])
    rw [Occ_internal, OccList_cons, OccList_cons, OccList_nil]
    exact ⟨by simp; omega, h.1, h.2, trivial⟩

theorem treeInsert_order (t : Tree V) (key : Nat) (v : V) :
    (treeInsert t key v).order = t.order := by
  rw [treeInsert]
  rcases nodeInsert t.order t.root key v t.ctr with ⟨n1, pay, ctr2⟩
  cases pay with
  | none => rfl
  | some p =>
    obtain ⟨nk, nn⟩ := p
    rfl

theorem runInserts_occ (order : Nat) (h2 : 2 ≤ order) (ops : List (Nat × V)) :
    TreeOcc (runInserts V order ops) := by
  rw [runInserts]
  suffices h : ∀ t : Tree V, t.order = order → TreeOcc t →
      TreeOcc (ops.foldl (fun t p => treeInsert t p.1 p.2) t) by
    refine h (mkTree V order) rfl ?_
    show Occ order (.leaf _)
    rw [Occ_leaf]
    simp [mkTree]
    omega
  induction ops with
  | nil => intro t _ ht; exact ht
  | cons p rest ih =>
    intro t hto ht
    simp only [List.foldl_cons]
    refine ih (treeInsert t p.1 p.2) ?_ (treeInsert_occ t p.1 p.2 (by omega) ht)
    rw [treeInsert_order, hto]

end BPT

namespace BPT

/-- C5 counterexample: with the default order 4, inserting just the four keys
1, 2, 3, 4 into a fresh tree already triggers a split — the root becomes an
internal node with two leaves `[1, 2]` and `[3, 4]` — even though no node's
key count ever exceeded the order bound.  This refutes "after every insert
completes, a node may hold up to `order` keys and a split occurs only for
counts beyond that bound": the code splits as soon as a count *reaches*
`order` (`is_full` is `len(self.keys) >= self.order`). -/
theorem C5_counterexample_split_at_order :
    isInternalB (runInserts Nat 4 [(1, 10), (2, 20), (3, 30), (4, 40)]).root = true ∧
    (leavesOf (runInserts Nat 4 [(1, 10), (2, 20), (3, 30), (4, 40)]).root).map
      (fun l => l.keys) = [[1, 2], [3, 4]] := by
  constructor
  · rfl
  · rfl

/-- C5 (amended): a node is split exactly when its key count *reaches* the
order bound (the code's `is_full` test `len(keys) >= order`), so for any
order ≥ 2, after every insert completes every node of the tree holds at most
`order − 1` keys. -/
theorem runInserts_order {V : Type} (order : Nat) (ops : List (Nat × V)) :
    (runInserts V order ops).order = order := by
  rw [runInserts]
  suffices h : ∀ t : Tree V,
      (ops.foldl (fun t p => treeInsert t p.1 p.2) t).order = t.order by
    rw [h]
    rfl
  induction ops with
  | nil => intro t; rfl
  | cons p rest ih =>
    intro t
    simp only [List.foldl_cons]
    rw [ih, treeInsert_order]

theorem C5_amended_occupancy (V : Type) (order : Nat) (h2 : 2 ≤ order)
    (ops : List (Nat × V)) : Occ order (runInserts V order ops).root := by
  have h := runInserts_occ (V := V) order h2 ops
  unfold TreeOcc at h
  rwa [runInserts_order] at h


set_option maxHeartbeats 1000000 in
/-- Witness for C5 (amended) at order 4 with five concrete inserts. -/
theorem C5_amended_occupancy_witness :
    2 ≤ 4 ∧ Occ 4 (runInserts Nat 4 [(1, 1), (2, 2), (3, 3), (4, 4), (5, 5)]).root :=
  ⟨by decide, C5_amended_occupancy Nat 4 (by decide) [(1, 1), (2, 2), (3, 3), (4, 4), (5, 5)]⟩

end BPT

namespace BPT

variable {V : Type}

/-- `links ls stop`: the `next_leaf` pointers of `ls` link each leaf to the
next one in the list, the last one pointing to `stop`. -/
def links : List (Leaf V) → Option Nat → Prop
  | [], _ => True
  | [a], stop => a.nxt = stop
  | a :: b :: rest, stop => a.nxt = some b.lid ∧ links (b :: rest) stop

/-- The pointer that reaches a list from the left: the first leaf's identity,
or `stop` when the list is empty. -/
def nextStart : List (Leaf V) → Option Nat → Option Nat
  | [], stop => stop
  | b :: _, _ => some b.lid

theorem links_cons (a : Leaf V) (B : List (Leaf V)) (stop : Option Nat) :
    links (a :: B) stop ↔ a.nxt = nextStart B stop ∧ links B stop := by
  cases B with
  | nil => simp [links, nextStart]
  | cons b rest => simp [links, nextStart]

theorem nextStart_append (A B : List (Leaf V)) (stop : Option Nat) :
    nextStart (A ++ B) stop = nextStart A (nextStart B stop) := by
  cases A with
  | nil => rfl
  | cons a rest => rfl

theorem links_append :
    ∀ (A B : List (Leaf V)) (stop : Option Nat),
      links (A ++ B) stop ↔ links A (nextStart B stop) ∧ links B stop
  | [], B, stop => by simp [links]
  | a :: A, B, stop => by
    rw [List.cons_append, links_cons, links_cons, nextStart_append,
      links_append A B stop]
    tauto

/-- Dereference a leaf pointer: the (unique) leaf with the given identity. -/
def findLeafById (ls : List (Leaf V)) (i : Nat) : Option (Leaf V) :=
  ls.find? (fun l => decide (l.lid = i))

/-- Walk the `next_leaf` chain starting from the given pointer, collecting
the keys of each visited leaf (`fuel` bounds the number of steps). -/
def followChain (ls : List (Leaf V)) : Option Nat → Nat → List Nat
  | _, 0 => []
  | none, _ + 1 => []
  | some i, fuel + 1 =>
    match findLeafById ls i with
    | none => []
    | some l => l.keys ++ followChain ls l.nxt fuel

theorem findLeafById_eq :
    ∀ (ls : List (Leaf V)) (l : Leaf V),
      ((ls.map (fun l => l.lid)).Nodup) → l ∈ ls →
      findLeafById ls l.lid = some l
  | [], l, _, hm => by simp at hm
  | a :: rest, l, hnd, hm => by
    rw [List.map_cons, List.nodup_cons] at hnd
    by_cases heq : a.lid = l.lid
    · have hal : a = l := by
        rcases List.mem_cons.mp hm with rfl | hm'
        · rfl
        · exfalso
          refine hnd.1 ?_
          rw [heq]
          exact List.mem_map_of_mem (fun l => l.lid) hm'
      subst hal
      simp [findLeafById, List.find?_cons, heq]
    · have hm' : l ∈ rest := by
        rcases List.mem_cons.mp hm with rfl | hm'
        · exact absurd rfl heq
        · exact hm'
      rw [findLeafById, List.find?_cons]
      have hd : decide (a.lid = l.lid) = false := decide_eq_false heq
      rw [hd]
      exact findLeafById_eq rest l hnd.2 hm'

theorem followChain_spec :
    ∀ (suf pre ls : List (Leaf V)), ls = pre ++ suf →
      ((ls.map (fun l => l.lid)).Nodup) → links suf none →
      followChain ls (nextStart suf none) suf.length =
        ((suf.map (fun l => l.keys)).flatten)
  | [], pre, ls, hls, hnd, hlk => by simp [nextStart, followChain]
  | l :: rest, pre, ls, hls, hnd, hlk => by
    rw [links_cons] at hlk
    have hmem : l ∈ ls := by
      rw [hls]
      exact List.mem_append.mpr (Or.inr (by simp))
    rw [nextStart, List.length_cons, followChain, findLeafById_eq ls l hnd hmem]
    show l.keys ++ followChain ls l.nxt rest.length =
      ((l :: rest).map (fun l => l.keys)).flatten
    rw [hlk.1, List.map_cons, List.flatten_cons]
    rw [followChain_spec rest (pre ++ [l]) ls (by simp [hls]) hnd hlk.2]

end BPT

namespace BPT

variable {V : Type}

/-- The leaves contributed by an optional split payload. -/
def payLeaves : Option (Nat × BNode V) → List (Leaf V)
  | none => []
  | some p => leavesOf p.2

/-- How one insert transforms the leaf sequence: unchanged, one leaf updated
in place (same identity and next pointer), or one leaf replaced by two — the
left half keeping the identity and pointing at the freshly allocated right
half, which takes over the old next pointer. -/
def LeavesShape (ls ls2 : List (Leaf V)) (ctr ctr2 : Nat) : Prop :=
  (ls2 = ls ∧ ctr2 = ctr) ∨
  (∃ A B l l', ls = A ++ l :: B ∧ ls2 = A ++ l' :: B ∧
    l'.lid = l.lid ∧ l'.nxt = l.nxt ∧ ctr2 = ctr) ∨
  (∃ A B l l' nl, ls = A ++ l :: B ∧ ls2 = A ++ l' :: nl :: B ∧
    l'.lid = l.lid ∧ l'.nxt = some ctr ∧ nl.lid = ctr ∧ nl.nxt = l.nxt ∧
    ctr2 = ctr + 1)

theorem LeavesShape_frame (A0 B0 : List (Leaf V)) {ls ls2 : List (Leaf V)}
    {ctr ctr2 : Nat} (h : LeavesShape ls ls2 ctr ctr2) :
    LeavesShape (A0 ++ ls ++ B0) (A0 ++ ls2 ++ B0) ctr ctr2 := by
  rcases h with ⟨rfl, rfl⟩ | ⟨A, B, l, l', h1, h2, h3, h4, h5⟩ |
      ⟨A, B, l, l', nl, h1, h2, h3, h4, h5, h6, h7⟩
  · exact Or.inl ⟨rfl, rfl⟩
  · refine Or.inr (Or.inl ⟨A0 ++ A, B ++ B0, l, l', ?_, ?_, h3, h4, h5⟩) <;>
      simp [h1, h2]
  · refine Or.inr (Or.inr ⟨A0 ++ A, B ++ B0, l, l', nl, ?_, ?_, h3, h4, h5, h6, h7⟩) <;>
      simp [h1, h2]

/-- One `insert` call transforms the left-to-right leaf sequence (of the
resulting node together with any split payload) by an in-place update or a
single two-way split, with `next_leaf` pointers and object identities
rewired exactly as `LeafNode._split` does. -/
theorem leaves_shape (order : Nat) :
    ∀ (n : BNode V) (key : Nat) (v : V) (ctr : Nat),
      LeavesShape (leavesOf n)
        (leavesOf (nodeInsert order n key v ctr).1 ++
          payLeaves (nodeInsert order n key v ctr).2.1)
        ctr (nodeInsert order n key v ctr).2.2
  | .leaf l, key, v, ctr => by
    simp only [nodeInsert, leafInsert]
    by_cases hup : l.keys.get? (leafPos l.keys key) = some key
    · rw [if_pos hup]
      simp only [Option.map_none, leavesOf, payLeaves, List.append_nil]
      exact Or.inr (Or.inl ⟨[], [], l, _, rfl, rfl, rfl, rfl, rfl⟩)
    · rw [if_neg hup]
      by_cases hfull : order ≤ (l.keys.insertIdx (leafPos l.keys key) key).length
      · rw [if_pos hfull]
        cases hhd : ((l.keys.insertIdx (leafPos l.keys key) key).drop
            ((l.keys.insertIdx (leafPos l.keys key) key).length / 2)).head? with
        | none =>
          simp only [Option.map_none, leavesOf, payLeaves, List.append_nil]
          exact Or.inr (Or.inl ⟨[], [], l, _, rfl, rfl, rfl, rfl, rfl⟩)
        | some promoted =>
          simp only [Option.map_some, leavesOf, payLeaves, List.append_nil]
          exact Or.inr (Or.inr ⟨[], [], l, _, _, rfl, rfl, rfl, rfl, rfl, rfl, rfl⟩)
      · rw [if_neg hfull]
        simp only [Option.map_none, leavesOf, payLeaves, List.append_nil]
        exact Or.inr (Or.inl ⟨[], [], l, _, rfl, rfl, rfl, rfl, rfl⟩)
  | .internal ks cs, key, v, ctr => by
    cases hg : cs.get? (findChildIdx ks key) with
    | none =>
      rw [nodeInsert, childInsert_eq_none order _ cs key v ctr hg]
      simp only [payLeaves, List.append_nil]
      exact Or.inl ⟨rfl, rfl⟩
    | some c =>
      have hsz := List.sizeOf_lt_of_mem (List.get?_mem hg)
      have ih := leaves_shape order c key v ctr
      rw [nodeInsert_internal_some order v ctr hg]
      rcases hni : nodeInsert order c key v ctr with ⟨c1, pay, ctr2⟩
      rw [hni] at ih
      have hls : leavesOf (.internal ks cs) =
          leavesOfList (cs.take (findChildIdx ks key)) ++
            (leavesOf c ++ leavesOfList (cs.drop (findChildIdx ks key + 1))) := by
        conv_lhs => rw [leavesOf, get?_decomp cs _ c hg]
        rw [leavesOfList_append]
        simp [leavesOfList]
      cases pay with
      | none =>
        simp only [payLeaves, List.append_nil] at ih ⊢
        have hls2 : leavesOf (BNode.internal ks (cs.set (findChildIdx ks key) c1)) =
            leavesOfList (cs.take (findChildIdx ks key)) ++
              (leavesOf c1 ++ leavesOfList (cs.drop (findChildIdx ks key + 1))) := by
          rw [leavesOf, set_decomp cs _ c c1 hg, leavesOfList_append]
          simp [leavesOfList]
        rw [hls, hls2]
        have := LeavesShape_frame (leavesOfList (cs.take (findChildIdx ks key)))
          (leavesOfList (cs.drop (findChildIdx ks key + 1))) ih
        simpa only [List.append_assoc] using this
      | some p =>
        obtain ⟨nk, nc⟩ := p
        simp only [payLeaves] at ih
        have hcs2 : leavesOfList
            ((cs.set (findChildIdx ks key)  c1).insertIdx (findChildIdx ks key + 1) nc) =
            leavesOfList (cs.take (findChildIdx ks key)) ++
              ((leavesOf c1 ++ leavesOf nc) ++
                leavesOfList (cs.drop (findChildIdx ks key + 1))) := by
          rw [set_insertIdx_decomp cs _ c c1 nc hg, leavesOfList_append]
          simp [leavesOfList, List.append_assoc]
        have hframe := LeavesShape_frame (leavesOfList (cs.take (findChildIdx ks key)))
          (leavesOfList (cs.drop (findChildIdx ks key + 1))) ih
        simp only []
        by_cases hfull : order ≤ (ks.insertIdx (findChildIdx ks key) nk).length
        · rw [if_pos hfull]
          cases hmk : (ks.insertIdx (findChildIdx ks key) nk).get?
              ((ks.insertIdx (findChildIdx ks key) nk).length / 2) with
          | none =>
            simp only [payLeaves, List.append_nil]
            rw [hls, leavesOf, hcs2]
            simpa only [List.append_assoc] using hframe
          | some mk =>
            simp only [payLeaves]
            have htkdr : leavesOf (BNode.internal
                  ((ks.insertIdx (findChildIdx ks key) nk).take
                    ((ks.insertIdx (findChildIdx ks key) nk).length / 2))
                  (((cs.set (findChildIdx ks key) c1).insertIdx
                      (findChildIdx ks key + 1) nc).take
                    ((ks.insertIdx (findChildIdx ks key) nk).length / 2 + 1))) ++
                leavesOf (BNode.internal
                  ((ks.insertIdx (findChildIdx ks key) nk).drop
                    ((ks.insertIdx (findChildIdx ks key) nk).length / 2 + 1))
                  (((cs.set (findChildIdx ks key) c1).insertIdx
                      (findChildIdx ks key + 1) nc).drop
                    ((ks.insertIdx (findChildIdx ks key) nk).length / 2 + 1))) =
                leavesOfList ((cs.set (findChildIdx ks key) c1).insertIdx
                  (findChildIdx ks key + 1) nc) := by
              rw [leavesOf, leavesOf, ← leavesOfList_append, List.take_append_drop]
            rw [hls, htkdr, hcs2]
            simpa only [List.append_assoc] using hframe
        · rw [if_neg hfull]
          simp only [payLeaves, List.append_nil]
          rw [hls, leavesOf, hcs2]
          simpa only [List.append_assoc] using hframe
termination_by n _ _ _ => sizeOf n
decreasing_by
  simp only [BNode.internal.sizeOf_spec]
  omega

end BPT

namespace BPT

variable {V : Type}

/-- The chain invariant survives one leaf-sequence transformation. -/
theorem chain_preserved {ls ls2 : List (Leaf V)} {ctr ctr2 : Nat}
    (hs : LeavesShape ls ls2 ctr ctr2)
    (h1 : links ls none)
    (h2 : ((ls.map (fun l => l.lid)).Nodup))
    (h3 : ∀ l ∈ ls, l.lid < ctr) :
    links ls2 none ∧ ((ls2.map (fun l => l.lid)).Nodup) ∧
      (∀ l ∈ ls2, l.lid < ctr2) ∧ ctr ≤ ctr2 := by
  rcases hs with ⟨rfl, rfl⟩ | ⟨A, B, l, l', rfl, rfl, hlid, hnxt, rfl⟩ |
      ⟨A, B, l, l', nl, rfl, rfl, hlid, hnxt, hnlid, hnlnxt, rfl⟩
  · exact ⟨h1, h2, h3, Nat.le_refl _⟩
  · obtain ⟨hA, hLB⟩ := (links_append A (l :: B) none).mp h1
    rw [links_cons] at hLB
    refine ⟨?_, ?_, ?_, Nat.le_refl _⟩
    · refine (links_append A (l' :: B) none).mpr ⟨?_, ?_⟩
      · simp only [nextStart, hlid]
        simpa only [nextStart] using hA
      · rw [links_cons]
        exact ⟨by rw [hnxt]; exact hLB.1, hLB.2⟩
    · have he : (A ++ l' :: B).map (fun l => l.lid) =
          (A ++ l :: B).map (fun l => l.lid) := by
        simp [hlid]
      rw [he]
      exact h2
    · intro x hx
      rcases List.mem_append.mp hx with hxA | hxB
      · exact h3 x (List.mem_append.mpr (Or.inl hxA))
      · rcases List.mem_cons.mp hxB with rfl | hxB2
        · rw [hlid]
          exact h3 l (List.mem_append.mpr (Or.inr (List.mem_cons_self _ _)))
        · exact h3 x (List.mem_append.mpr (Or.inr (List.mem_cons_of_mem _ hxB2)))
  · obtain ⟨hA, hLB⟩ := (links_append A (l :: B) none).mp h1
    rw [links_cons] at hLB
    refine ⟨?_, ?_, ?_, Nat.le_succ _⟩
    · refine (links_append A (l' :: nl :: B) none).mpr ⟨?_, ?_⟩
      · simp only [nextStart, hlid]
        simpa only [nextStart] using hA
      · rw [links_cons]
        refine ⟨?_, ?_⟩
        · simp only [nextStart, hnxt, hnlid]
        · rw [links_cons]
          exact ⟨by rw [hnlnxt]; exact hLB.1, hLB.2⟩
    · have hne : (A ++ l' :: nl :: B).map (fun l => l.lid) =
          (A.map (fun l => l.lid) ++ [l.lid]) ++ ctr :: B.map (fun l => l.lid) := by
        simp [hlid, hnlid]
      have hperm : ((A.map (fun l => l.lid) ++ [l.lid]) ++
            ctr :: B.map (fun l => l.lid)).Perm
          (ctr :: ((A.map (fun l => l.lid) ++ [l.lid]) ++ B.map (fun l => l.lid))) :=
        List.perm_middle
      have hold : (A.map (fun l => l.lid) ++ [l.lid]) ++ B.map (fun l => l.lid) =
          (A ++ l :: B).map (fun l => l.lid) := by simp
      rw [hne, hperm.nodup_iff, List.nodup_cons, hold]
      refine ⟨?_, h2⟩
      intro hmem
      rcases List.mem_map.mp hmem with ⟨x, hx, hxe⟩
      exact Nat.ne_of_lt (h3 x hx) hxe
    · intro x hx
      rcases List.mem_append.mp hx with hxA | hxB
      · exact Nat.lt_succ_of_lt (h3 x (List.mem_append.mpr (Or.inl hxA)))
      · rcases List.mem_cons.mp hxB with rfl | hxB2
        · rw [hlid]
          exact Nat.lt_succ_of_lt
            (h3 l (List.mem_append.mpr (Or.inr (List.mem_cons_self _ _))))
        · rcases List.mem_cons.mp hxB2 with rfl | hxB3
          · rw [hnlid]
            exact Nat.lt_succ_self _
          · exact Nat.lt_succ_of_lt
              (h3 x (List.mem_append.mpr (Or.inr (List.mem_cons_of_mem _ hxB3))))

/-- On a well-formed subtree every leaf has aligned key and value lists. -/
theorem wf_leaf_len {lo hi : Option Nat} {n : BNode V} (hwf : WF lo hi n) :
    ∀ l ∈ leavesOf n, l.vals.length = l.keys.length := by
  induction hwf with
  | leaf hs hb hv =>
    intro l hl
    simp only [leavesOf, List.mem_singleton] at hl
    subst hl
    exact hv
  | one hc ih =>
    intro l hl
    simp only [leavesOf, leavesOfList, List.append_nil] at hl
    exact ih l hl
  | more hsep hc hrest ihc ihrest =>
    intro l hl
    simp only [leavesOf, leavesOfList] at hl ihrest
    rcases List.mem_append.mp hl with h | h
    · exact ihc l h
    · exact ihrest l h

/-- On a well-formed subtree, concatenating the key lists of the leaves in
order gives exactly the first components of the stored entries. -/
theorem entries_keys_flatten {lo hi : Option Nat} {n : BNode V} (hwf : WF lo hi n) :
    ((leavesOf n).map (fun l => l.keys)).flatten = (entries n).map Prod.fst := by
  rw [entries, List.map_flatten, List.map_map]
  refine congrArg List.flatten (List.map_congr_left ?_)
  intro l hl
  show l.keys = (entriesL l).map Prod.fst
  rw [entriesL, List.map_fst_zip _ _ (le_of_eq (wf_leaf_len hwf l hl).symm)]

/-- The leaf-chain invariant of a tree: the `next_leaf` pointers thread the
leaves left to right ending in `None`, leaf identities are distinct, and all
identities are below the allocation counter. -/
def TreeChain (t : Tree V) : Prop :=
  links (leavesOf t.root) none ∧
  ((leavesOf t.root).map (fun l => l.lid)).Nodup ∧
  (∀ l ∈ leavesOf t.root, l.lid < t.ctr)

theorem mkTree_chain (V : Type) (order : Nat) : TreeChain (mkTree V order) := by
  refine ⟨?_, ?_, ?_⟩
  · exact rfl
  · simp [mkTree, leavesOf]
  · intro l hl
    simp only [mkTree, leavesOf, List.mem_singleton] at hl
    subst hl
    exact Nat.zero_lt_one

theorem treeInsert_chain (t : Tree V) (key : Nat) (v : V) (hc : TreeChain t) :
    TreeChain (treeInsert t key v) := by
  obtain ⟨h1, h2, h3⟩ := hc
  have hs := leaves_shape t.order t.root key v t.ctr
  rcases hni : nodeInsert t.order t.root key v t.ctr with ⟨n1, pay, ctr2⟩
  rw [hni] at hs
  have hres := chain_preserved hs h1 h2 h3
  cases pay with
  | none =>
    simp only [payLeaves, List.append_nil] at hres
    simp only [treeInsert, hni]
    exact ⟨hres.1, hres.2.1, fun l hl => hres.2.2.1 l hl⟩
  | some p =>
    obtain ⟨nk, nn⟩ := p
    simp only [payLeaves] at hres
    simp only [treeInsert, hni]
    have hroot : leavesOf (BNode.internal [nk] [n1, nn]) =
        leavesOf n1 ++ leavesOf nn := by
      simp [leavesOf, leavesOfList]
    refine ⟨?_, ?_, ?_⟩
    · show links (leavesOf (BNode.internal [nk] [n1, nn])) none
      rw [hroot]
      exact hres.1
    · show ((leavesOf (BNode.internal [nk] [n1, nn])).map (fun l => l.lid)).Nodup
      rw [hroot]
      exact hres.2.1
    · intro l hl
      rw [hroot] at hl
      exact hres.2.2.1 l hl

theorem foldl_chain :
    ∀ (ops : List (Nat × V)) (t : Tree V), TreeChain t →
      TreeChain (ops.foldl (fun t p => treeInsert t p.1 p.2) t)
  | [], _, h => h
  | p :: rest, t, h => foldl_chain rest _ (treeInsert_chain t p.1 p.2 h)

theorem runInserts_chain (V : Type) (order : Nat) (ops : List (Nat × V)) :
    TreeChain (runInserts V order ops) :=
  foldl_chain ops (mkTree V order) (mkTree_chain V order)

end BPT

namespace BPT

variable {V : Type}

/-- C6: after every sequence of `insert` calls on a `BPlusTree` — including
sequences that trigger leaf, internal and root splits — the keys stored in
the leaves are globally sorted (strictly increasing across the whole tree),
and following the `next_leaf` forward links starting from the leftmost leaf
visits every stored key exactly once, in ascending order. -/
theorem C6_leaf_chain_sorted (V : Type) (order : Nat) (ops : List (Nat × V)) :
    ((entries (runInserts V order ops).root).map Prod.fst).Sorted (· < ·) ∧
    followChain (leavesOf (runInserts V order ops).root)
        (nextStart (leavesOf (runInserts V order ops).root) none)
        (leavesOf (runInserts V order ops).root).length =
      (entries (runInserts V order ops).root).map Prod.fst := by
  obtain ⟨hwf, hent⟩ := @runInserts_wf_entries V order ops
  obtain ⟨hlk, hnd, hbound⟩ := runInserts_chain V order ops
  refine ⟨entries_fst_sorted hwf, ?_⟩
  rw [followChain_spec (leavesOf (runInserts V order ops).root) []
    (leavesOf (runInserts V order ops).root) (by simp) hnd hlk]
  exact entries_keys_flatten hwf

end BPT

namespace GraphM

/-- Python dict lookup (`d[k]` / `d.get(k)`) on an insertion-ordered
association list. -/
def dget {α : Type} : List (Nat × α) → Nat → Option α
  | [], _ => none
  | p :: rest, k => if p.1 = k then some p.2 else dget rest k

/-- Python dict assignment `d[k] = v`: overwrite in place if the key exists,
otherwise append at the end (dicts preserve insertion order). -/
def dset {α : Type} : List (Nat × α) → Nat → α → List (Nat × α)
  | [], k, v => [(k, v)]
  | p :: rest, k, v => if p.1 = k then (k, v) :: rest else p :: dset rest k v

/-- `DocumentGraph.__init__`: adjacency list, incoming links and stored
PageRank scores, each an insertion-ordered dict. -/
structure DocumentGraph where
  adjacency_list : List (Nat × List Nat)
  incoming_links : List (Nat × List Nat)
  pagerank_scores : List (Nat × ℚ)
deriving DecidableEq

def emptyGraph : DocumentGraph := ⟨[], [], []⟩

/-- `DocumentGraph.add_node`. -/
def add_node (g : DocumentGraph) (doc_id : Nat) : DocumentGraph :=
  if (dget g.adjacency_list doc_id).isSome then g
  else { g with adjacency_list := dset g.adjacency_list doc_id [],
                incoming_links := dset g.incoming_links doc_id [] }

/-- `DocumentGraph.add_link`: ensure both nodes exist, then add the edge
unless it is already present.  (The `none` fallbacks cannot fire: `add_node`
has just ensured both keys are present.) -/
def add_link (g : DocumentGraph) (from_doc to_doc : Nat) : DocumentGraph :=
  let g2 := add_node (add_node g from_doc) to_doc
  match dget g2.adjacency_list from_doc with
  | none => g2
  | some outs =>
    if to_doc ∈ outs then g2
    else
      { g2 with
        adjacency_list := dset g2.adjacency_list from_doc (outs ++ [to_doc]),
        incoming_links :=
          match dget g2.incoming_links to_doc with
          | none => g2.incoming_links
          | some ins => dset g2.incoming_links to_doc (ins ++ [from_doc]) }

/-- The inner loop of `calculate_pagerank` for one node: the random-jump
base plus a damped contribution from each incoming neighbour, divided by its
out-degree (or by the node count in the dangling-node branch).  The state
accesses `self.adjacency_list`/`self.incoming_links` are passed as the
`adj`/`inc` parameters; `current_scores[d]` lookups cannot miss on graphs
built by `add_link`, so `getD 0` stands in for the subscript. -/
def nodeScore (adj inc : List (Nat × List Nat)) (damping : ℚ)
    (current : List (Nat × ℚ)) (doc_id : Nat) : ℚ :=
  ((dget inc doc_id).getD []).foldl
    (fun score incoming_doc =>
      let out_degree := ((dget adj incoming_doc).getD []).length
      if 0 < out_degree then
        score + damping * ((dget current incoming_doc).getD 0) / out_degree
      else
        score + damping * ((dget current incoming_doc).getD 0) / adj.length)
    ((1 - damping) / adj.length)

/-- One `for doc_id in self.adjacency_list` pass building `new_scores`. -/
def stepScores (adj inc : List (Nat × List Nat)) (damping : ℚ)
    (current : List (Nat × ℚ)) : List (Nat × ℚ) :=
  adj.map (fun p => (p.1, nodeScore adj inc damping current p.1))

/-- `max(abs(new - current))` over the nodes (all terms are non-negative, so
folding from `0` agrees with Python's `max` on the non-empty graph). -/
def maxDiff (adj : List (Nat × List Nat)) (nw cur : List (Nat × ℚ)) : ℚ :=
  (adj.map (fun p => |(dget nw p.1).getD 0 - (dget cur p.1).getD 0|)).foldl max 0

/-- The `for iteration in range(max_iterations)` loop: on convergence the
loop `break`s and the PRE-update `current_scores` are kept. -/
def prIter (adj inc : List (Nat × List Nat)) (damping tol : ℚ) :
    Nat → List (Nat × ℚ) → List (Nat × ℚ)
  | 0, current => current
  | fuel + 1, current =>
    let nw := stepScores adj inc damping current
    if maxDiff adj nw current < tol then current
    else prIter adj inc damping tol fuel nw

/-- `DocumentGraph.calculate_pagerank`: returns `{}` (storing nothing) on an
empty graph, otherwise iterates from the uniform distribution and stores the
result in `self.pagerank_scores`. -/
def calculate_pagerank (g : DocumentGraph) (damping : ℚ) (max_iterations : Nat)
    (tol : ℚ) : DocumentGraph × List (Nat × ℚ) :=
  match g.adjacency_list with
  | [] => (g, [])
  | _ =>
    let init := g.adjacency_list.map
      (fun p => (p.1, (1 : ℚ) / g.adjacency_list.length))
    let final := prIter g.adjacency_list g.incoming_links damping tol
      max_iterations init
    ({ g with pagerank_scores := final }, final)

/-- `DocumentGraph.get_authority_score`: stored score or `0.0`. -/
def get_authority_score (g : DocumentGraph) (doc_id : Nat) : ℚ :=
  (dget g.pagerank_scores doc_id).getD 0

/-- `random.randint(lo, hi)`: consumes one entropy value; `none` models the
`ValueError` raised when `hi < lo`. -/
def randint (lo hi : Nat) (ent : List Nat) : Option (Nat × List Nat) :=
  if hi < lo then none
  else
    match ent with
    | [] => some (lo, [])
    | e :: rest => some (lo + e % (hi - lo + 1), rest)

/-- `random.sample(pop, k)`: `k` entropy-driven draws without replacement. -/
def sampleIdx {α : Type} : List α → Nat → List Nat → List α × List Nat
  | _, 0, ent => ([], ent)
  | pop, k + 1, [] =>
    match pop.get? 0 with
    | none => ([], [])
    | some x =>
      let r := sampleIdx (pop.eraseIdx 0) k []
      (x :: r.1, r.2)
  | pop, k + 1, e :: rest =>
    match pop.get? (e % pop.length) with
    | none => ([], rest)
    | some x =>
      let r := sampleIdx (pop.eraseIdx (e % pop.length)) k rest
      (x :: r.1, r.2)

/-- The body of the `for from_doc in self.doc_ids` loop of
`SearchEngine._generate_citations`: `random.randint(2, min(4, n-1))`
citations to targets sampled from the other documents. -/
def citeOne (doc_ids : List Nat) (from_doc : Nat) :
    DocumentGraph × List Nat → Option (DocumentGraph × List Nat)
  | (g, ent) =>
    match randint 2 (min 4 (doc_ids.length - 1)) ent with
    | none => none
    | some (num_citations, ent2) =>
      let possible_targets := doc_ids.filter (fun d => d != from_doc)
      let s := sampleIdx possible_targets
        (min num_citations possible_targets.length) ent2
      some (s.1.foldl (fun g to_doc => add_link g from_doc to_doc) g, s.2)

/-- `SearchEngine._generate_citations`: citations are generated internally
from the `random` module's entropy (modelled as the `ent` stream), not taken
as input. -/
def generateCitations (doc_ids : List Nat) (g : DocumentGraph)
    (ent : List Nat) : Option (DocumentGraph × List Nat) :=
  if doc_ids.length < 2 then some (g, ent)
  else doc_ids.foldlM (fun acc from_doc => citeOne doc_ids from_doc acc) (g, ent)

end GraphM

namespace GraphM

theorem prIter_succ (adj inc : List (Nat × List Nat)) (damping tol : ℚ)
    (fuel : Nat) (cur : List (Nat × ℚ)) :
    prIter adj inc damping tol (fuel + 1) cur =
      if maxDiff adj (stepScores adj inc damping cur) cur < tol then cur
      else prIter adj inc damping tol fuel (stepScores adj inc damping cur) := rfl

/-- The graph with the single citation `1 → 2`. -/
def g12 : DocumentGraph := add_link emptyGraph 1 2

/-- C7: refuted as stated — on the non-empty graph with the single edge
`1 → 2` (Python defaults `damping_factor = 0.85`, `max_iterations = 100`,
`tolerance = 1e-6`, in exact arithmetic), `calculate_pagerank` terminates by
convergence with stored scores summing to `171/800`, not 1: node 2 is a
dangling node (no outgoing links), and since the dangling-node fallback sits
inside the loop over *incoming* neighbours — which by construction all have
out-degree at least 1 — it never fires, so the dangling mass is simply
lost. -/
theorem C7_pagerank_mass_lost :
    ((calculate_pagerank g12 (17/20) 100 (1/1000000)).2.map Prod.snd).sum =
      171/800 ∧ ((171 : ℚ)/800) ≠ 1 := by
  have hadj : g12.adjacency_list = [(1,[2]),(2,[])] := rfl
  have hinc : g12.incoming_links = [(1,[]),(2,[1])] := rfl
  have e1 : stepScores [(1,[2]),(2,[])] [(1,[]),(2,[1])] (17/20)
      [(1,1/2),(2,1/2)] = [(1,3/40),(2,1/2)] := by
    norm_num [stepScores, nodeScore, dget]
  have e2 : stepScores [(1,[2]),(2,[])] [(1,[]),(2,[1])] (17/20)
      [(1,3/40),(2,1/2)] = [(1,3/40),(2,111/800)] := by
    norm_num [stepScores, nodeScore, dget]
  have e3 : stepScores [(1,[2]),(2,[])] [(1,[]),(2,[1])] (17/20)
      [(1,3/40),(2,111/800)] = [(1,3/40),(2,111/800)] := by
    norm_num [stepScores, nodeScore, dget]
  have hne1 : ¬ (maxDiff [(1,[2]),(2,[])] [(1,3/40),(2,1/2)] [(1,1/2),(2,1/2)]
      < 1/1000000) := by
    norm_num [maxDiff, dget]
    rw [abs_of_nonneg] <;> norm_num
  have hne2 : ¬ (maxDiff [(1,[2]),(2,[])] [(1,3/40),(2,111/800)]
      [(1,3/40),(2,1/2)] < 1/1000000) := by
    norm_num [maxDiff, dget]
    rw [abs_of_nonneg] <;> norm_num
  have hlt3 : maxDiff [(1,[2]),(2,[])] [(1,3/40),(2,111/800)]
      [(1,3/40),(2,111/800)] < 1/1000000 := by
    norm_num [maxDiff, dget]
  have hrun : prIter [(1,[2]),(2,[])] [(1,[]),(2,[1])] (17/20) (1/1000000) 100
      [(1,1/2),(2,1/2)] = [(1,3/40),(2,111/800)] := by
    rw [show (100:Nat) = 99+1 from rfl, prIter_succ, e1, if_neg hne1,
        show (99:Nat) = 98+1 from rfl, prIter_succ, e2, if_neg hne2,
        show (98:Nat) = 97+1 from rfl, prIter_succ, e3, if_pos hlt3]
  have hcp : (calculate_pagerank g12 (17/20) 100 (1/1000000)).2 =
      prIter g12.adjacency_list g12.incoming_links (17/20) (1/1000000) 100
        (g12.adjacency_list.map
          (fun p => (p.1, (1:ℚ)/g12.adjacency_list.length))) := rfl
  rw [hadj, hinc] at hcp
  have hinit : ([(1,[2]),(2,[])] : List (Nat × List Nat)).map
      (fun p => (p.1, (1:ℚ)/(([(1,[2]),(2,[])] : List (Nat × List Nat)).length))) =
      [(1,1/2),(2,1/2)] := by norm_num
  rw [hinit, hrun] at hcp
  rw [hcp]
  norm_num

end GraphM

namespace GraphM

/-- C4 counterexample: the engine does not take citation edges as input —
`_generate_citations` draws them internally from `random`.  With the same
four input documents and identical parameters, two runs whose internal
entropy streams differ (all-zero draws vs a first draw of 1) build different
citation graphs and report different authority scores for document 4. -/
theorem C4_counterexample_random_citations :
    (generateCitations [1,2,3,4] emptyGraph (List.replicate 12 0)).map
        (fun r => get_authority_score
          (calculate_pagerank r.1 (17/20) 1 (1/1000000)).1 4) ≠
      (generateCitations [1,2,3,4] emptyGraph (1 :: List.replicate 12 0)).map
        (fun r => get_authority_score
          (calculate_pagerank r.1 (17/20) 1 (1/1000000)).1 4) := by
  have hg1 : generateCitations [1,2,3,4] emptyGraph (List.replicate 12 0) =
      some (⟨[(1,[2,3]),(2,[1,3]),(3,[1,2]),(4,[1,2])],
             [(1,[2,3,4]),(2,[1,3,4]),(3,[1,2]),(4,[])], []⟩, []) := rfl
  have hg2 : generateCitations [1,2,3,4] emptyGraph (1 :: List.replicate 12 0) =
      some (⟨[(1,[2,3,4]),(2,[1,3]),(3,[1,2]),(4,[1,2])],
             [(1,[2,3,4]),(2,[1,3,4]),(3,[1,2]),(4,[1])], []⟩, []) := rfl
  rw [hg1, hg2]
  simp only [Option.map_some', ne_eq, Option.some.injEq]
  have e1 : stepScores [(1,[2,3]),(2,[1,3]),(3,[1,2]),(4,[1,2])]
      [(1,[2,3,4]),(2,[1,3,4]),(3,[1,2]),(4,[])] (17/20)
      [(1,1/4),(2,1/4),(3,1/4),(4,1/4)] =
      [(1,57/160),(2,57/160),(3,1/4),(4,3/80)] := by
    norm_num [stepScores, nodeScore, dget]
  have e2 : stepScores [(1,[2,3,4]),(2,[1,3]),(3,[1,2]),(4,[1,2])]
      [(1,[2,3,4]),(2,[1,3,4]),(3,[1,2]),(4,[1])] (17/20)
      [(1,1/4),(2,1/4),(3,1/4),(4,1/4)] =
      [(1,57/160),(2,77/240),(3,103/480),(4,13/120)] := by
    norm_num [stepScores, nodeScore, dget]
  have hne1 : ¬ (maxDiff [(1,[2,3]),(2,[1,3]),(3,[1,2]),(4,[1,2])]
      [(1,57/160),(2,57/160),(3,1/4),(4,3/80)]
      [(1,1/4),(2,1/4),(3,1/4),(4,1/4)] < 1/1000000) := by
    norm_num [maxDiff, dget]
    rw [abs_of_nonneg, abs_of_nonneg] <;> norm_num
  have hne2 : ¬ (maxDiff [(1,[2,3,4]),(2,[1,3]),(3,[1,2]),(4,[1,2])]
      [(1,57/160),(2,77/240),(3,103/480),(4,13/120)]
      [(1,1/4),(2,1/4),(3,1/4),(4,1/4)] < 1/1000000) := by
    norm_num [maxDiff, dget]
    rw [abs_of_nonneg, abs_of_nonneg] <;> norm_num
  have hrun1 : prIter [(1,[2,3]),(2,[1,3]),(3,[1,2]),(4,[1,2])]
      [(1,[2,3,4]),(2,[1,3,4]),(3,[1,2]),(4,[])] (17/20) (1/1000000) 1
      [(1,1/4),(2,1/4),(3,1/4),(4,1/4)] =
      [(1,57/160),(2,57/160),(3,1/4),(4,3/80)] := by
    rw [show (1:Nat) = 0+1 from rfl, prIter_succ, e1, if_neg hne1]
    rfl
  have hrun2 : prIter [(1,[2,3,4]),(2,[1,3]),(3,[1,2]),(4,[1,2])]
      [(1,[2,3,4]),(2,[1,3,4]),(3,[1,2]),(4,[1])] (17/20) (1/1000000) 1
      [(1,1/4),(2,1/4),(3,1/4),(4,1/4)] =
      [(1,57/160),(2,77/240),(3,103/480),(4,13/120)] := by
    rw [show (1:Nat) = 0+1 from rfl, prIter_succ, e2, if_neg hne2]
    rfl
  have hcp1 : get_authority_score
      (calculate_pagerank (⟨[(1,[2,3]),(2,[1,3]),(3,[1,2]),(4,[1,2])],
        [(1,[2,3,4]),(2,[1,3,4]),(3,[1,2]),(4,[])], []⟩ : DocumentGraph)
        (17/20) 1 (1/1000000)).1 4 =
      (dget (prIter [(1,[2,3]),(2,[1,3]),(3,[1,2]),(4,[1,2])]
        [(1,[2,3,4]),(2,[1,3,4]),(3,[1,2]),(4,[])] (17/20) (1/1000000) 1
        (([(1,[2,3]),(2,[1,3]),(3,[1,2]),(4,[1,2])] : List (Nat × List Nat)).map
          (fun p => (p.1, (1:ℚ)/(([(1,[2,3]),(2,[1,3]),(3,[1,2]),(4,[1,2])] :
            List (Nat × List Nat)).length))))) 4).getD 0 := rfl
  have hcp2 : get_authority_score
      (calculate_pagerank (⟨[(1,[2,3,4]),(2,[1,3]),(3,[1,2]),(4,[1,2])],
        [(1,[2,3,4]),(2,[1,3,4]),(3,[1,2]),(4,[1])], []⟩ : DocumentGraph)
        (17/20) 1 (1/1000000)).1 4 =
      (dget (prIter [(1,[2,3,4]),(2,[1,3]),(3,[1,2]),(4,[1,2])]
        [(1,[2,3,4]),(2,[1,3,4]),(3,[1,2]),(4,[1])] (17/20) (1/1000000) 1
        (([(1,[2,3,4]),(2,[1,3]),(3,[1,2]),(4,[1,2])] : List (Nat × List Nat)).map
          (fun p => (p.1, (1:ℚ)/(([(1,[2,3,4]),(2,[1,3]),(3,[1,2]),(4,[1,2])] :
            List (Nat × List Nat)).length))))) 4).getD 0 := rfl
  have hinit1 : ([(1,[2,3]),(2,[1,3]),(3,[1,2]),(4,[1,2])] :
      List (Nat × List Nat)).map
      (fun p => (p.1, (1:ℚ)/(([(1,[2,3]),(2,[1,3]),(3,[1,2]),(4,[1,2])] :
        List (Nat × List Nat)).length))) =
      [(1,1/4),(2,1/4),(3,1/4),(4,1/4)] := by norm_num
  have hinit2 : ([(1,[2,3,4]),(2,[1,3]),(3,[1,2]),(4,[1,2])] :
      List (Nat × List Nat)).map
      (fun p => (p.1, (1:ℚ)/(([(1,[2,3,4]),(2,[1,3]),(3,[1,2]),(4,[1,2])] :
        List (Nat × List Nat)).length))) =
      [(1,1/4),(2,1/4),(3,1/4),(4,1/4)] := by norm_num
  rw [hcp1, hcp2, hinit1, hinit2, hrun1, hrun2]
  norm_num [dget]

/-- C4 (amended): authority scores are deterministic in the citation graph:
any two graph states with identical adjacency lists and identical incoming
links (whatever previously stored scores they carry) yield identical
PageRank results for the same parameters. -/
theorem C4_amended_determinism (g g' : DocumentGraph) (damping tol : ℚ)
    (maxIter : Nat)
    (ha : g.adjacency_list = g'.adjacency_list)
    (hinc : g.incoming_links = g'.incoming_links) :
    (calculate_pagerank g damping maxIter tol).2 =
      (calculate_pagerank g' damping maxIter tol).2 := by
  simp only [calculate_pagerank, ha, hinc]
  cases hx : g'.adjacency_list with
  | nil => rfl
  | cons a t => rfl

theorem C4_amended_determinism_witness :
    (calculate_pagerank
        (⟨[(1,[2]),(2,[])], [(1,[]),(2,[1])], []⟩ : DocumentGraph)
        (17/20) 3 (1/1000000)).2 =
      (calculate_pagerank
        (⟨[(1,[2]),(2,[])], [(1,[]),(2,[1])], [(7, 5)]⟩ : DocumentGraph)
        (17/20) 3 (1/1000000)).2 :=
  C4_amended_determinism _ _ _ _ _ rfl rfl

end GraphM

namespace EngineM

/-- A word character of Python's `\w` (over the ASCII alphabet the engine's
lower-cased text uses). -/
def isWordChar (c : Char) : Bool := c.isAlphanum || c == '_'

/-- Accumulating scan producing the maximal word-character runs. -/
def runsAux : List Char → List Char → List (List Char)
  | [], acc => if acc.isEmpty then [] else [acc.reverse]
  | c :: rest, acc =>
    if isWordChar c then runsAux rest (c :: acc)
    else if acc.isEmpty then runsAux rest []
    else acc.reverse :: runsAux rest []

/-- `SearchEngine._tokenize`: `re.findall(r'\b[a-z0-9]+\b', text.lower())`.
A match is a maximal word-character run of the lowercased text that contains
no underscore: a run with `_` offers no word boundary beside its
alphanumeric stretches, so it yields no match at all. -/
def tokenize (text : List Char) : List (List Char) :=
  (runsAux (text.map Char.toLower) []).filter (fun r => r.all (fun c => c != '_'))

/-- Python `str.strip()`: drop whitespace from both ends. -/
def strip (l : List Char) : List Char :=
  ((l.dropWhile Char.isWhitespace).reverse.dropWhile Char.isWhitespace).reverse

/-- `dict.get` on a word-keyed insertion-ordered dict. -/
def tget {α : Type} : List (List Char × α) → List Char → Option α
  | [], _ => none
  | p :: rest, k => if p.1 = k then some p.2 else tget rest k

/-- `str.find(sub)`: first index of a contiguous occurrence. -/
def findSub : List Char → List Char → Option Nat
  | _, [] => some 0
  | [], _ :: _ => none
  | h :: hay, n :: ndl =>
    if TrieM.isPfxB (n :: ndl) (h :: hay) then some 0
    else (findSub hay (n :: ndl)).map (fun i => i + 1)

/-- `SearchEngine._extract_snippet` (with `max_length` passed explicitly;
`start`/`stop` use truncated subtraction exactly as Python's
`max(0, idx - 50)` does). -/
def extract_snippet (content query_term : List Char) (max_length : Nat) :
    List Char :=
  let content_lower := content.map Char.toLower
  let term_lower := query_term.map Char.toLower
  match findSub content_lower term_lower with
  | none =>
    if max_length < content.length then content.take max_length ++ ['.', '.', '.']
    else content
  | some idx =>
    let start := idx - 50
    let stop := min content.length (idx + max_length - 50)
    let snip := (content.take stop).drop start
    let snip := if 0 < start then ['.', '.', '.'] ++ snip else snip
    let snip := if stop < content.length then snip ++ ['.', '.', '.'] else snip
    strip snip

/-- The metadata dict stored per document in the B+ tree. -/
structure Metadata where
  title : List Char
  file_path : List Char
  url : List Char
  word_count : Nat
  content : List Char

/-- One result dict of `SearchEngine.search`. -/
structure SResult where
  doc_id : Nat
  title : List Char
  url : List Char
  snippet : List Char
  score : ℚ
  term_frequency : ℚ
  authority_score : ℚ

/-- The `SearchEngine` state reachable by `search` and `autocomplete`:
the inverted index (term → doc-id set, in iteration order), the per-document
term-frequency dicts, the B+ tree of metadata, the citation graph and the
trie. -/
structure Engine where
  inverted_index : List (List Char × List Nat)
  doc_term_frequency : List (Nat × List (List Char × Nat))
  b_plus_tree : BPT.Tree Metadata
  graph : GraphM.DocumentGraph
  trie : TrieM.Trie

/-- `SearchEngine._calculate_term_frequency`: `0.0` for an unknown document
or an empty one, otherwise `count / doc_length`. -/
def calc_tf (e : Engine) (doc_id : Nat) (term : List Char) : ℚ :=
  match GraphM.dget e.doc_term_frequency doc_id with
  | none => 0
  | some tfd =>
    let term_count := (tget tfd (term.map Char.toLower)).getD 0
    let doc_length := (tfd.map Prod.snd).sum
    if 0 < doc_length then (term_count : ℚ) / (doc_length : ℚ) else 0

/-- The body of the result loop of `SearchEngine.search` for one matching
document: skip it if the B+ tree has no metadata, otherwise build the result
dict with `score = tf + authority`. -/
def mkResult (e : Engine) (search_term : List Char) (doc_id : Nat) :
    Option SResult :=
  match BPT.treeSearch e.b_plus_tree doc_id with
  | none => none
  | some md =>
    let tf := calc_tf e doc_id search_term
    let authority := GraphM.get_authority_score e.graph doc_id
    some { doc_id := doc_id, title := md.title, url := md.url,
           snippet := extract_snippet md.content search_term 150,
           score := tf + authority, term_frequency := tf,
           authority_score := authority }

/-- `SearchEngine.search`: empty/whitespace-only queries short-circuit; the
first token is looked up in the inverted index; results are built per
matching document and sorted by `sort_results`. -/
def engineSearch (e : Engine) (query : List Char) : List SResult :=
  if query.isEmpty || (strip query).isEmpty then []
  else
    match tokenize query with
    | [] => []
    | t :: _ =>
      let search_term := t.map Char.toLower
      let matching_docs := (tget e.inverted_index search_term).getD []
      if matching_docs.isEmpty then []
      else Sorter.sort_results (fun r => r.score)
        (matching_docs.filterMap (mkResult e search_term))

/-- `SearchEngine.autocomplete`: empty/whitespace-only prefixes
short-circuit, otherwise the trie is queried with `limit=5`. -/
def engineAutocomplete (e : Engine) (p : List Char) : List (List Char) :=
  if p.isEmpty || (strip p).isEmpty then []
  else TrieM.autocompleteT e.trie (strip p) 5

end EngineM

namespace Sorter

theorem mem_sort_results {α : Type} (sc : α → ℚ) (x : α) (l : List α)
    (h : x ∈ sort_results sc l) : x ∈ l := by
  cases l with
  | nil => simpa [sort_results] using h
  | cons a t => exact (merge_sort_perm sc (a :: t)).mem_iff.mp h

theorem sort_results_singleton {α : Type} (sc : α → ℚ) (x : α) :
    sort_results sc [x] = [x] := by
  show merge_sort sc [x] = [x]
  rw [merge_sort]
  simp

end Sorter

namespace BPT

variable {V : Type}

theorem foldl_if_absent (key : Nat) :
    ∀ (ops : List (Nat × V)) (acc : Option V), (∀ p ∈ ops, p.1 ≠ key) →
      ops.foldl (fun acc p => if p.1 = key then some p.2 else acc) acc = acc
  | [], _, _ => rfl
  | p :: rest, acc, h => by
    rw [List.foldl_cons, if_neg (h p (List.mem_cons_self _ _))]
    exact foldl_if_absent key rest acc (fun q hq => h q (List.mem_cons_of_mem _ hq))

/-- A key that was never inserted is not found. -/
theorem treeSearch_absent (V : Type) (order : Nat) (ops : List (Nat × V))
    (key : Nat) (h : ∀ p ∈ ops, p.1 ≠ key) :
    treeSearch (runInserts V order ops) key = none := by
  obtain ⟨hwf, hent⟩ := @runInserts_wf_entries V order ops
  rw [treeSearch, nodeSearch_spec _ none none key hwf, hent,
    alookup_foldl_upsert ops key []]
  exact foldl_if_absent key ops none h

end BPT

namespace EngineM

/-- C8: not-found and malformed inputs yield empty results through total
code paths: a whitespace-only (or empty) query short-circuits `search` to
`[]`; a query whose first token is absent from the inverted index returns
`[]`; a whitespace-only (or empty) prefix short-circuits `autocomplete` to
`[]`; a prefix whose path is absent from the trie returns `[]`; and B+ tree
lookup of a never-inserted key returns `None`. -/
theorem C8_not_found_empty_results (e : Engine) (q p : List Char) (V : Type)
    (order : Nat) (ops : List (Nat × V)) (key : Nat) :
    (strip q = [] → engineSearch e q = []) ∧
    (∀ t rest, tokenize q = t :: rest →
      tget e.inverted_index (t.map Char.toLower) = none →
      engineSearch e q = []) ∧
    (strip p = [] → engineAutocomplete e p = []) ∧
    (TrieM.findPath e.trie (TrieM.low (strip p)) = none →
      engineAutocomplete e p = []) ∧
    ((∀ pr ∈ ops, pr.1 ≠ key) →
      BPT.treeSearch (BPT.runInserts V order ops) key = none) := by
  refine ⟨?_, ?_, ?_, ?_, ?_⟩
  · intro h
    rw [engineSearch, h]
    simp
  · intro t rest htok hterm
    rw [engineSearch]
    by_cases hq : (q.isEmpty || (strip q).isEmpty) = true
    · rw [if_pos hq]
    · rw [if_neg hq, htok]
      simp only [hterm, Option.getD_none, List.isEmpty_nil, if_pos]
  · intro h
    rw [engineAutocomplete, h]
    simp
  · intro h
    rw [engineAutocomplete]
    by_cases hp : (p.isEmpty || (strip p).isEmpty) = true
    · rw [if_pos hp]
    · rw [if_neg hp, TrieM.autocompleteT, h]
  · exact BPT.treeSearch_absent V order ops key

/-- C9: every result returned by `search` carries
`score = term_frequency + authority_score`, where the reported
`term_frequency` is `_calculate_term_frequency` of the result's document and
the (lower-cased first) query token, and the reported `authority_score` is
the graph's stored score for that document (`0.0` if absent). -/
theorem C9_scoring_formula (e : Engine) (q : List Char) (r : SResult)
    (hr : r ∈ engineSearch e q) :
    ∃ t rest, tokenize q = t :: rest ∧
      r.term_frequency = calc_tf e r.doc_id (t.map Char.toLower) ∧
      r.authority_score = GraphM.get_authority_score e.graph r.doc_id ∧
      r.score = r.term_frequency + r.authority_score := by
  rw [engineSearch] at hr
  by_cases hq : (q.isEmpty || (strip q).isEmpty) = true
  · rw [if_pos hq] at hr
    simp at hr
  · rw [if_neg hq] at hr
    cases htok : tokenize q with
    | nil =>
      rw [htok] at hr
      simp at hr
    | cons t rest =>
      rw [htok] at hr
      simp only [] at hr
      by_cases hm : (((tget e.inverted_index (t.map Char.toLower)).getD
          []).isEmpty) = true
      · rw [if_pos hm] at hr
        simp at hr
      · rw [if_neg hm] at hr
        have hr2 := Sorter.mem_sort_results _ r _ hr
        obtain ⟨d, hd, hmk⟩ := List.mem_filterMap.mp hr2
        rw [mkResult] at hmk
        cases hts : BPT.treeSearch e.b_plus_tree d with
        | none =>
          rw [hts] at hmk
          simp at hmk
        | some md =>
          rw [hts] at hmk
          simp only [Option.some.injEq] at hmk
          subst hmk
          exact ⟨t, rest, rfl, rfl, rfl, rfl⟩

end EngineM

namespace EngineM

/-- A tiny engine state for exercising the not-found paths. -/
def eW8 : Engine :=
  ⟨[], [], BPT.mkTree Metadata 4, GraphM.emptyGraph, TrieM.emptyTrie⟩

theorem C8_witness :
    engineSearch eW8 [' '] = [] ∧ engineSearch eW8 ['z'] = [] ∧
    engineAutocomplete eW8 [' '] = [] ∧ engineAutocomplete eW8 ['z'] = [] ∧
    BPT.treeSearch (BPT.runInserts Nat 4 [(1, 0)]) 2 = none := by
  refine ⟨?_, ?_, ?_, ?_, ?_⟩
  · exact (C8_not_found_empty_results eW8 [' '] [' '] Nat 4 [] 0).1 rfl
  · exact (C8_not_found_empty_results eW8 ['z'] ['z'] Nat 4 [] 0).2.1
      ['z'] [] rfl rfl
  · exact (C8_not_found_empty_results eW8 [' '] [' '] Nat 4 [] 0).2.2.1 rfl
  · exact (C8_not_found_empty_results eW8 ['z'] ['z'] Nat 4 [] 0).2.2.2.1 rfl
  · exact (C8_not_found_empty_results eW8 [' '] [' '] Nat 4 [(1, 0)] 2).2.2.2.2
      (by decide)

/-- C9 witness data: one indexed document with an all-zero term table (so
the term frequency is 0) and a stored authority score of 3. -/
def mdW : Metadata := ⟨['d'], ['f'], ['u'], 1, ['a']⟩

def eW9 : Engine :=
  ⟨[(['a'], [1])], [(1, [(['a'], 0)])],
   BPT.runInserts Metadata 4 [(1, mdW)],
   ⟨[], [], [(1, 3)]⟩, TrieM.emptyTrie⟩

def rW : SResult :=
  { doc_id := 1, title := mdW.title, url := mdW.url,
    snippet := extract_snippet mdW.content ['a'] 150,
    score := calc_tf eW9 1 ['a'] + GraphM.get_authority_score eW9.graph 1,
    term_frequency := calc_tf eW9 1 ['a'],
    authority_score := GraphM.get_authority_score eW9.graph 1 }

theorem C9_witness :
    ∃ t rest, tokenize ['a'] = t :: rest ∧
      rW.term_frequency = calc_tf eW9 rW.doc_id (t.map Char.toLower) ∧
      rW.authority_score = GraphM.get_authority_score eW9.graph rW.doc_id ∧
      rW.score = rW.term_frequency + rW.authority_score :=
  C9_scoring_formula eW9 ['a'] rW (by
    have he : engineSearch eW9 ['a'] = [rW] := by
      show Sorter.sort_results (fun r => r.score) [rW] = [rW]
      exact Sorter.sort_results_singleton _ rW
    rw [he]
    exact List.mem_singleton_self rW)

end EngineM
